import Mathlib

/-!
Verification development for the shopware-acceptance-fixture-loader repository.

The TypeScript sources are shallowly embedded as pure Lean functions over an
explicit document tree `Doc` (the in-memory shape of parsed YAML data).
JavaScript objects are modelled as insertion-ordered association lists
(`List (String × _)`) with JS object-assignment semantics (`jsInsert`:
overwriting an existing key keeps its position, a new key is appended),
matching iteration order of JS objects and `Map`s.  `JSON.parse(JSON.stringify _)`
deep cloning is modelled by the structural copy `cloneDoc`.
Remote API interaction is modelled by an explicit call log (`ApiCall`) and by
oracles supplying the remote responses; thrown `Error`s are modelled as
structured error values.
-/

/-- Document tree: the in-memory shape of parsed YAML / JSON data.
Mappings are insertion-ordered association lists, as JS objects are. -/
inductive Doc where
  | null : Doc
  | bool : Bool → Doc
  | num : Int → Doc
  | str : String → Doc
  | seq : List Doc → Doc
  | map : List (String × Doc) → Doc

/-- JavaScript truthiness of a document value (NaN is not representable here). -/
def jsTruthy : Doc → Bool
  | Doc.null => false
  | Doc.bool b => b
  | Doc.num n => decide (n ≠ 0)
  | Doc.str s => decide (s ≠ "")
  | Doc.seq _ => true
  | Doc.map _ => true

/-- First-match association-list lookup (JS objects cannot hold duplicate keys,
so first match and last match agree on all real inputs). -/
def alookup {α : Type} : List (String × α) → String → Option α
  | [], _ => none
  | (k, v) :: rest, key => if k = key then some v else alookup rest key

/-- JS object assignment `o[k] = v`: overwriting an existing key keeps its
position, a fresh key is appended at the end. -/
def jsInsert {α : Type} : List (String × α) → String → α → List (String × α)
  | [], k, v => [(k, v)]
  | (k', v') :: rest, k, v =>
      if k' = k then (k', v) :: rest else (k', v') :: jsInsert rest k v

/-- JS object spread `{...base, ...over}` on entry lists. -/
def jsObjAssign {α : Type} (base over : List (String × α)) : List (String × α) :=
  over.foldl (fun acc kv => jsInsert acc kv.1 kv.2) base

/-- Field lookup on a document: only mappings have fields. -/
def Doc.lookup : Doc → String → Option Doc
  | Doc.map es, k => alookup es k
  | _, _ => none

/-- Follow a path of field segments through nested mappings. -/
def getPath : Doc → List String → Option Doc
  | d, [] => some d
  | d, k :: rest =>
      match d.lookup k with
      | some v => getPath v rest
      | none => none

mutual

/-- Structural deep copy, the `JSON.parse(JSON.stringify _)` clone on the
pure document tree. -/
def cloneDoc : Doc → Doc
  | Doc.null => Doc.null
  | Doc.bool b => Doc.bool b
  | Doc.num n => Doc.num n
  | Doc.str s => Doc.str s
  | Doc.seq l => Doc.seq (cloneList l)
  | Doc.map es => Doc.map (cloneEntries es)
termination_by structural d => d

/-- Clone of a sequence of documents. -/
def cloneList : List Doc → List Doc
  | [] => []
  | d :: rest => cloneDoc d :: cloneList rest
termination_by structural l => l

/-- Clone of a mapping's entry list. -/
def cloneEntries : List (String × Doc) → List (String × Doc)
  | [] => []
  | (k, v) :: rest => (k, cloneDoc v) :: cloneEntries rest
termination_by structural l => l

end

/-- `FixtureDefinition` of src/YamlFixtureLoader.ts, restricted to the fields
the analyzed code reads (`children`, `references` and `processors` are not
consulted by any claim's code path).  `data = none` stands for an absent or
null `data`. -/
structure FixtureDef where
  entity : String
  data : Option Doc := none
  existing : Bool := false
  query : Option Doc := none

/- ## CircularReferenceResolver (src/CircularReferenceResolver.ts) -/

/-- `ProcessingEntity` of src/CircularReferenceResolver.ts. -/
inductive Phase where
  | pending : Phase
  | created : Phase
  | updated : Phase
deriving DecidableEq

mutual

/-- `extractReferences` (src/CircularReferenceResolver.ts:134-148): collects
`(field, reference)` callback invocations, in order.  A string value `@r`
directly under an object key `k` reports `(k, r)`; a string `@r` met as the
whole value or as a sequence element reports `("", r)`; other values recurse. -/
def extractRefs : Doc → List (String × String)
  | Doc.str s =>
      match s.data with
      | '@' :: rest => [("", String.mk rest)]
      | _ => []
  | Doc.seq l => extractRefsList l
  | Doc.map es => extractRefsEntries es
  | _ => []
termination_by structural d => d

/-- `extractReferences` over the elements of an array. -/
def extractRefsList : List Doc → List (String × String)
  | [] => []
  | d :: rest => extractRefs d ++ extractRefsList rest
termination_by structural l => l

/-- `extractReferences` over the entries of an object: a string value starting
with `@` is reported under its key, anything else recurses. -/
def extractRefsEntries : List (String × Doc) → List (String × String)
  | [] => []
  | (k, v) :: rest =>
      (match v with
        | Doc.str s =>
            match s.data with
            | '@' :: tl => [(k, String.mk tl)]
            | _ => []
        | w => extractRefs w) ++ extractRefsEntries rest
termination_by structural l => l

end

/-- `getDirectDependencies` (src/CircularReferenceResolver.ts:120-128):
reference names of a data document, deduplicated in first-seen order. -/
def getDirectDependencies (d : Doc) : List String :=
  (extractRefs d).foldl (fun acc fr => if acc.contains fr.2 then acc else acc ++ [fr.2]) []

/-- The resolver's `entities` map: fixture name to the fixture's `data`
(`none` both for an absent entity and for an entity without `data`, which the
source treats alike via `targetEntity?.fixture.data`). -/
def entData (ents : List (String × FixtureDef)) (n : String) : Option Doc :=
  match alookup ents n with
  | some fx => fx.data
  | none => none

/-- `this.entities.has n` of the resolver. -/
def entHas (ents : List (String × FixtureDef)) (n : String) : Bool :=
  (alookup ents n).isSome

/-- `createsCycle` (src/CircularReferenceResolver.ts:97-115): depth-first
search from `target` for a dependency path back to `source`; `visited` is the
path-copied visited set (`new Set(visited)` per branch).  The JS recursion
terminates because `visited` grows inside the finite entity set; here the same
search is driven by a fuel counter, instantiated with `ents.length + 1` which
is enough for every simple path. -/
def createsCycleF (ents : List (String × FixtureDef)) :
    Nat → String → String → List String → Bool
  | 0, _, _, _ => false
  | fuel + 1, source, target, visited =>
      if source = target then true
      else if target ∈ visited then false
      else
        match entData ents target with
        | none => false
        | some d =>
            (getDirectDependencies d).any fun dep =>
              entHas ents dep && createsCycleF ents fuel source dep (target :: visited)

/-- `createsCycle` with the fuel that suffices for every simple path. -/
def createsCycle (ents : List (String × FixtureDef)) (source target : String) : Bool :=
  createsCycleF ents (ents.length + 1) source target []

/-- The classification at the heart of `findCircularFields`
(src/CircularReferenceResolver.ts:81-88): a candidate `(field, reference)`
extracted from `data` is deferred iff the reference names a known entity and
`createsCycle` holds for it. -/
def classifyDeferred (ents : List (String × FixtureDef)) (name : String) (d : Doc) :
    List (String × String) :=
  (extractRefs d).filter fun fr => entHas ents fr.2 && createsCycle ents name fr.2

/-- `findCircularFields` (src/CircularReferenceResolver.ts:72-92): the deferred
candidates keyed into a map (`Map.set` keeps first-insertion position).  The
`visited` guard is the function's own re-entrancy check; its callers always
pass a fresh set. -/
def findCircularFields (ents : List (String × FixtureDef)) (name : String) (d : Doc)
    (visited : List String := []) : List (String × String) :=
  if name ∈ visited then []
  else (classifyDeferred ents name d).foldl (fun acc fr => jsInsert acc fr.1 fr.2) []

/-- The direct-reference edge relation of the resolver's graph: `a` has data
whose references include `b`, and `b` names a known entity (the
`entities.has dep` guard of `createsCycle`). -/
def refEdge (ents : List (String × FixtureDef)) (a b : String) : Prop :=
  (∃ d, entData ents a = some d ∧ b ∈ getDirectDependencies d) ∧ entHas ents b = true

/- ### Initial data and deferred updates -/

/-- Remove one key from an object's entries (JS `delete obj[k]`). -/
def removeKey : List (String × Doc) → String → List (String × Doc)
  | [], _ => []
  | (k, v) :: rest, p => if k = p then removeKey rest p else (k, v) :: removeKey rest p

/-- Rewrite the (first) entry under key `p` with `fn` (JS mutation of
`obj[p]`, which keeps the key's position). -/
def modifyEntry : List (String × Doc) → String → (Doc → Doc) → List (String × Doc)
  | [], _, _ => []
  | (k, v) :: rest, p, fn =>
      if k = p then (k, fn v) :: rest else (k, v) :: modifyEntry rest p fn

/-- `removeField` (src/CircularReferenceResolver.ts:184-197) on an already
split path.  A single segment deletes the key; a longer path recurses into a
truthy `obj[first]`.  Deleting a string key from a JS array is a no-op, so
sequence documents pass through unchanged (deferred-field paths name mapping
keys). -/
def removeFieldParts : Doc → List String → Doc
  | d, [] => d
  | Doc.map es, [p] => Doc.map (removeKey es p)
  | Doc.map es, p :: r0 :: rs =>
      match alookup es p with
      | some v =>
          if jsTruthy v then
            Doc.map (modifyEntry es p (fun w => removeFieldParts w (r0 :: rs)))
          else Doc.map es
      | none => Doc.map es
  | d, _ :: _ => d
termination_by structural d parts => parts

/-- Char-level worker for `splitOnDot` with the current segment accumulated
in reverse. -/
def splitOnDotGo : List Char → List Char → List String
  | [], acc => [String.mk acc.reverse]
  | '.' :: rest, acc => String.mk acc.reverse :: splitOnDotGo rest []
  | c :: rest, acc => splitOnDotGo rest (c :: acc)

/-- JS `fieldPath.split('.')`: segments between dots, never empty as a list. -/
def splitOnDot (path : String) : List String :=
  splitOnDotGo path.data []

/-- `removeField` on the dotted path string (`fieldPath.split('.')`). -/
def removeField (d : Doc) (path : String) : Doc :=
  removeFieldParts d (splitOnDot path)

/-- A processing-plan entry (`ProcessingEntity` of the resolver), its
`deferredFields` map as an insertion-ordered association list. -/
structure ProcessingEntity where
  name : String
  fixture : FixtureDef
  phase : Phase := Phase.pending
  entity : Option String := none
  deferredFields : List (String × String) := []

/-- `getInitialData` (src/CircularReferenceResolver.ts:153-164): deep-clone the
entry's data and delete every deferred field's path; falsy data yields `{}`. -/
def getInitialData (e : ProcessingEntity) : Doc :=
  match e.fixture.data with
  | none => Doc.map []
  | some d =>
      if jsTruthy d then
        e.deferredFields.foldl (fun acc fr => removeField acc fr.1) (cloneDoc d)
      else Doc.map []

/- ## YamlFixtureProcessor (the processor source file) -/

/-- `snakeToKebab` (processor source, `str.replace(/_/g, '-')`). -/
def snakeToKebab (s : String) : String :=
  String.mk (s.data.map fun c => if c = '_' then '-' else c)

/-- `getEntityEndpoint`: kebab-cased entity type behind `./`. -/
def getEntityEndpoint (entityType : String) : String :=
  "./" ++ snakeToKebab entityType

/-- `getCleanupEndpoint`: the processor derives the cleanup endpoint from the
name recorded in the creation ledger (not from the fixture's entity kind). -/
def getCleanupEndpoint (entityName : String) : String :=
  getEntityEndpoint entityName

/-- One remote API interaction of the processor, in the order issued. -/
inductive ApiCall where
  | get : String → Doc → ApiCall
  | post : String → Doc → ApiCall
  | patch : String → String → Doc → ApiCall
  | del : String → String → ApiCall

/-- Whether a call is an entity creation (`adminApiContext.post`). -/
def ApiCall.isCreate : ApiCall → Bool
  | ApiCall.post _ _ => true
  | _ => false

/- ### Multi-insertion expansion -/

/-- Numeric value of a digit string, most significant first (`parseInt`). -/
def natOfDigits (ds : List Char) : Nat :=
  ds.foldl (fun n c => 10 * n + (c.toNat - ('0').toNat)) 0

/-- The repeat-key pattern `^(.+)_\x7b(\d+)\.\.\.(\d+)\x7d$` of
`expandMultiInsertionFixtures`.  The decomposition of a matching key is
unique (the '_' before the brace is the only '_' the tail can contain, and the
digit runs are maximal), so the greedy regex match is this right-to-left
parse: a final brace, a digit run, three dots, a digit run, an opening brace,
an underscore, and a non-empty base. -/
def parseRepeatKey (key : String) : Option (String × Nat × Nat) :=
  match key.data.reverse with
  | '}' :: rest =>
      let d2r := rest.takeWhile Char.isDigit
      let rest2 := rest.drop d2r.length
      if d2r.isEmpty then none
      else
        match rest2 with
        | '.' :: '.' :: '.' :: rest3 =>
            let d1r := rest3.takeWhile Char.isDigit
            let rest4 := rest3.drop d1r.length
            if d1r.isEmpty then none
            else
              match rest4 with
              | '{' :: '_' :: baseR =>
                  if baseR.isEmpty then none
                  else some (String.mk baseR.reverse, natOfDigits d1r.reverse,
                             natOfDigits d2r.reverse)
              | _ => none
        | _ => none
  | _ => none

/-- `fixture.data ? JSON.parse(JSON.stringify(fixture.data)) : undefined`. -/
def jsCloneOpt : Option Doc → Option Doc
  | some d => if jsTruthy d then some (cloneDoc d) else none
  | none => none

/-- The fixtures contributed by one key of the input map in
`expandMultiInsertionFixtures`: a matching key yields one copy per index of
the inclusive range, each with deep-cloned data; any other key passes through. -/
def expandEntry : String × FixtureDef → List (String × FixtureDef)
  | (key, fx) =>
      match parseRepeatKey key with
      | some (base, s, e) =>
          (List.range' s (e + 1 - s)).map fun i =>
            (base ++ ("_") ++ toString i, { fx with data := jsCloneOpt fx.data })
      | none => [(key, fx)]

/-- `expandMultiInsertionFixtures` (processor source): each key's contribution
written into the result object in order. -/
def expandMultiInsertionFixtures (fixtures : List (String × FixtureDef)) :
    List (String × FixtureDef) :=
  fixtures.foldl (fun acc kv => (expandEntry kv).foldl
    (fun a p => jsInsert a p.1 p.2) acc) []

/- ### Existing-entity lookup (phase 1, `existing: true` branch) -/

/-- Engine errors, structured renderings of the thrown `Error` messages. -/
inductive EngError where
  | notFound : String → Doc → EngError
  | createFailed : String → EngError
  | updateFailed : String → String → EngError

/-- `findExistingEntity` (processor source): issue the search against the
entity endpoint with the processed criteria (`query`, falling back to `data`);
an empty result set raises `notFound` carrying the entity kind and the
processed criteria; otherwise the first match is returned.  `procData`
abstracts the data-processing collaborator `loader.processFixtureData`;
`findResult` is the remote response's `data` array, each row an entity
with its `id`. -/
def findExistingEntity (procData : Doc → Doc) (fx : FixtureDef)
    (findResult : List String) : List ApiCall × Except EngError String :=
  let criteria :=
    match fx.query with
    | some q => procData q
    | none => procData (match fx.data with | some d => d | none => Doc.null)
  let calls := [ApiCall.get (getEntityEndpoint fx.entity) criteria]
  match findResult with
  | [] => (calls, Except.error (EngError.notFound fx.entity criteria))
  | e :: _ => (calls, Except.ok e)

/-- The `existing` branch of `processFixtures` phase 1 (processor source):
find the entity; when the fixture also carries `data`, issue exactly one
update with the processed data against the found entity; then the entry is in
`created` phase. -/
def processExistingStep (procData : Doc → Doc) (fx : FixtureDef)
    (findResult : List String) : List ApiCall × Except EngError (String × Phase) :=
  match findExistingEntity procData fx findResult with
  | (calls, Except.error err) => (calls, Except.error err)
  | (calls, Except.ok ent) =>
      match fx.data with
      | some d =>
          (calls ++ [ApiCall.patch (getEntityEndpoint fx.entity) ent (procData d)],
           Except.ok (ent, Phase.created))
      | none => (calls, Except.ok (ent, Phase.created))

/- ### Phase 2 (deferred updates) -/

/-- `getDeferredUpdates` (src/CircularReferenceResolver.ts:169-179): for each
deferred `(field, reference)`, a reference present in the shared reference map
contributes `field -> resolved value`; an absent reference is skipped. -/
def getDeferredUpdates (references : List (String × Doc)) (e : ProcessingEntity) :
    List (String × Doc) :=
  e.deferredFields.foldl
    (fun acc fr =>
      match alookup references fr.2 with
      | some v => jsInsert acc fr.1 v
      | none => acc) []

/-- One plan entry of the phase-2 loop of `processFixtures` (processor
source): an entry in `created` phase with a non-empty deferred-update payload
is patched and moves to `updated`; every other entry is untouched.  (`entity`
holds the id of the phase-1 result; phase 1 always sets it before `created`.) -/
def phase2Step (references : List (String × Doc)) (e : ProcessingEntity) :
    ProcessingEntity × List ApiCall :=
  if e.phase = Phase.created then
    let u := getDeferredUpdates references e
    if u.isEmpty then (e, [])
    else
      ({ e with phase := Phase.updated },
       [ApiCall.patch (getEntityEndpoint e.fixture.entity)
         (match e.entity with | some i => i | none => "") (Doc.map u)])
  else (e, [])

/- ### Cleanup -/

/-- The per-run shared state of the processor: the creation ledger
(`createdEntities`, name to recorded id) and the reference map. -/
structure ProcessorState where
  createdEntities : List (String × String) := []
  references : List (String × Doc) := []

/-- The loop body of `cleanup` over the reversed ledger: each entry with a
truthy endpoint and a truthy recorded id gets one delete, whose outcome
(`oracle`) is discarded by the surrounding try/catch. -/
def cleanupCalls (oracle : String → String → Except Doc Unit) :
    List (String × String) → List ApiCall
  | [] => []
  | (name, entityId) :: rest =>
      let endpoint := getCleanupEndpoint name
      (if endpoint ≠ "" ∧ entityId ≠ "" then
        match oracle endpoint entityId with
        | Except.ok _ => [ApiCall.del endpoint entityId]
        | Except.error _ => [ApiCall.del endpoint entityId]
      else []) ++ cleanupCalls oracle rest

/-- `cleanup` (processor source): delete along the reversed creation ledger,
then clear both the ledger and the reference map. -/
def cleanup (oracle : String → String → Except Doc Unit) (st : ProcessorState) :
    List ApiCall × ProcessorState :=
  (cleanupCalls oracle st.createdEntities.reverse,
   { createdEntities := [], references := [] })

/- ## YamlFixtureLoader file-level composition (src/YamlFixtureLoader.ts) -/

/-- Composition errors, structured renderings of the loader's thrown `Error`
messages: `circularInclude p cur` stands for the message naming the offending
path `p` and the file `cur` whose include list was being walked
("... in the chain starting from cur"); likewise `circularDepends`. -/
inductive CompErr where
  | circularInclude : String → String → CompErr
  | circularDepends : String → String → CompErr
  | includedFileNotFound : String → CompErr
  | fileNotFound : String → CompErr
  | outOfFuel : CompErr
deriving DecidableEq

/-- One raw YAML document at the level the loader walks it: the `@includes`
and `@depends` directives (normalized to lists, `none` when absent or falsy),
the `fixtures` section (each named fixture an arbitrary sub-document), and the
remaining root-level keys. -/
structure RawDoc where
  includes : Option (List String) := none
  depends : Option (List String) := none
  fixtures : Option (List (String × Doc)) := none
  rest : List (String × Doc) := []

/-- `mergeDependencies` (src/YamlFixtureLoader.ts:260-285): union of the two
`@depends` lists, order-preserving, deduplicated; empty becomes absent. -/
def mergeDependencies (current included : Option (List String)) : Option (List String) :=
  let merged := (included.getD []).foldl
    (fun acc dep => if acc.contains dep then acc else acc ++ [dep])
    (current.getD [])
  if merged.isEmpty then none else some merged

/-- The entry list of a mapping document (`{...d}` contributes nothing for a
non-mapping, which never occurs for fixture records). -/
def Doc.entries : Doc → List (String × Doc)
  | Doc.map es => es
  | _ => []

/-- Whether a fixture record's `data` key holds a truthy value. -/
def dataTruthy (fx : Doc) : Bool :=
  match fx.lookup ("data") with
  | some d => jsTruthy d
  | none => false

/-- The per-record override merge of `processIncludeDirectives`
(src/YamlFixtureLoader.ts:176-187): `{...base, ...current}` on the record's
top-level fields, and — when both records carry truthy `data` — the `data` key
rewritten to the one-level spread `{...base.data, ...current.data}`. -/
def mergeFixtureRecord (base current : Doc) : Doc :=
  let m := jsObjAssign base.entries current.entries
  if dataTruthy base ∧ dataTruthy current then
    Doc.map (jsInsert m ("data")
      (Doc.map (jsObjAssign ((base.lookup ("data")).getD Doc.null).entries
                           ((current.lookup ("data")).getD Doc.null).entries)))
  else Doc.map m

/-- The fixtures-section merge of one included document into the merged data
so far (src/YamlFixtureLoader.ts:169-192): start from the included fixtures,
then lay every current fixture on top, deep-merging records defined by both. -/
def mergeFixtureSections (included current : List (String × Doc)) :
    List (String × Doc) :=
  current.foldl
    (fun acc nf =>
      match alookup included nf.1 with
      | some basefx => jsInsert acc nf.1 (mergeFixtureRecord basefx nf.2)
      | none => jsInsert acc nf.1 nf.2)
    included

/-- Merging one fully processed included document `pid` into the accumulated
document `acc` (src/YamlFixtureLoader.ts:162-248): the fixtures sections are
merged when the included document has one; the included `@depends` is unioned
into the accumulator's; every other root key of the included document
overwrites the accumulator's. -/
def mergeIncludedDoc (acc pid : RawDoc) : RawDoc :=
  let withRoot : RawDoc :=
    { acc with
      depends := if pid.depends.isSome then mergeDependencies acc.depends pid.depends
                 else acc.depends,
      rest := pid.rest.foldl (fun a kv => jsInsert a kv.1 kv.2) acc.rest }
  match pid.fixtures with
  | some includedFx =>
      { withRoot with fixtures := some (mergeFixtureSections includedFx (acc.fixtures.getD [])) }
  | none => withRoot

/-- `fs.existsSync` + read + parse: the modelled file system. -/
def lookupRawDoc (fsys : List (String × RawDoc)) (p : String) : Option RawDoc :=
  alookup fsys p

/-- Adding an included file's dependency fixtures into that file's own
fixtures without overriding truthy existing records
(src/YamlFixtureLoader.ts:151-156). -/
def addMissingFixtures (cur dep : List (String × Doc)) : List (String × Doc) :=
  dep.foldl
    (fun acc nf =>
      match alookup acc nf.1 with
      | some v => if jsTruthy v then acc else jsInsert acc nf.1 nf.2
      | none => acc ++ [(nf.1, nf.2)])
    cur

/-- The `@depends` pass over one included document
(src/YamlFixtureLoader.ts:127-160): every dependency file still in the current
chain is a circular-dependency error naming it and the current file; a listed
file missing from the file system is skipped; otherwise the dependency is
recursively composed (`recProc`, the fuel-smaller `processIncludeDirectives`
with the same superset visited set) and its fixtures are added to the included
document without overriding. -/
def resolveIncludedDepends (fsys : List (String × RawDoc))
    (recProc : RawDoc → String → Except CompErr RawDoc)
    (cur : String) (visited : List String) :
    List String → RawDoc → Except CompErr RawDoc
  | [], pid => Except.ok pid
  | depFile :: more, pid =>
      if depFile ∈ visited then Except.error (CompErr.circularDepends depFile cur)
      else
        match lookupRawDoc fsys depFile with
        | none => resolveIncludedDepends fsys recProc cur visited more pid
        | some depDoc =>
            match recProc depDoc depFile with
            | Except.error e => Except.error e
            | Except.ok pdep =>
                match pdep.fixtures with
                | some depFx =>
                    resolveIncludedDepends fsys recProc cur visited more
                      { pid with fixtures := some (addMissingFixtures (pid.fixtures.getD []) depFx) }
                | none => resolveIncludedDepends fsys recProc cur visited more pid

/-- The loop over the `@includes` list (src/YamlFixtureLoader.ts:109-249):
a file already in the current chain is a circular-include error naming it and
the current file; a missing file is an error; otherwise the file is composed
recursively, its `@depends` resolved, and the result merged under the
accumulator. -/
def foldIncludeFiles (fsys : List (String × RawDoc))
    (recProc : RawDoc → String → Except CompErr RawDoc)
    (cur : String) (visited : List String) :
    List String → RawDoc → Except CompErr RawDoc
  | [], acc => Except.ok acc
  | f :: more, acc =>
      if f ∈ visited then Except.error (CompErr.circularInclude f cur)
      else
        match lookupRawDoc fsys f with
        | none => Except.error (CompErr.includedFileNotFound f)
        | some fd =>
            match recProc fd f with
            | Except.error e => Except.error e
            | Except.ok pid1 =>
                match resolveIncludedDepends fsys recProc cur visited
                        (pid1.depends.getD []) pid1 with
                | Except.error e => Except.error e
                | Except.ok pid2 =>
                    foldIncludeFiles fsys recProc cur visited more (mergeIncludedDoc acc pid2)

/-- `processIncludeDirectives` (src/YamlFixtureLoader.ts:79-255).  The current
file joins the visited set; without an `@includes` directive the document is
returned as-is; otherwise the directive is dropped and every listed file is
composed and merged in order.  Each recursive call receives a fresh superset
copy of the visited set (`new Set(processedFiles)`), so sibling branches do
not pollute each other.  Recursion depth is driven by fuel; the growing
visited set inside a finite file system bounds the real recursion, so any fuel
past the file-system size behaves identically. -/
def processIncludeDirectives (fsys : List (String × RawDoc)) :
    Nat → RawDoc → String → List String → Except CompErr RawDoc
  | 0, _, _, _ => Except.error CompErr.outOfFuel
  | fuel + 1, d, cur, visited =>
      match d.includes with
      | none => Except.ok d
      | some files =>
          foldIncludeFiles fsys
            (fun fd f => processIncludeDirectives fsys fuel fd f (cur :: visited))
            cur (cur :: visited) files { d with includes := none }

/-- `loadFixtures` down to composition: look the file up and process its
include directives with a fresh visited set. -/
def loadAndCompose (fsys : List (String × RawDoc)) (fuel : Nat) (filename : String) :
    Except CompErr RawDoc :=
  match lookupRawDoc fsys filename with
  | none => Except.error (CompErr.fileNotFound filename)
  | some d => processIncludeDirectives fsys fuel d filename []

/- ## Entity-level include directive (spec §4.1, data-processing time) -/

mutual

/-- Modelled from the spec: the deep merge used by the entity-level `include`
directive — "replace it with a deep merge of the named fixture's `data` ...
underneath the current record's own `data` fields (current fields win)".  The
implementation of this directive is absent from src/ (only its tests ship
there), so the merge follows the spec's words: two mappings merge key by key
recursively, anything else is won by the overriding (current) side. -/
def deepMerge : Doc → Doc → Doc
  | Doc.map bs, Doc.map os => Doc.map (deepMergeInto bs os)
  | _, o => o
termination_by structural _b o => o

/-- Modelled from the spec: fold the overriding entries into the base ones. -/
def deepMergeInto : List (String × Doc) → List (String × Doc) → List (String × Doc)
  | bs, [] => bs
  | bs, (k, ov) :: rest =>
      deepMergeInto
        (match alookup bs k with
          | some bv => modifyEntry bs k (fun _ => deepMerge bv ov)
          | none => bs ++ [(k, ov)])
        rest
termination_by structural _bs os => os

end

/-- Modelled from the spec: the entity-level `include` directive found on a
specific record's `data` (spec §4.1): the named fixture must already be
present in the merged map — otherwise the error names the missing key — and
the directive is replaced by the deep merge of that fixture's `data`
underneath the record's remaining fields.  `allFixtures` is the merged fixture
map; a record without the directive passes through. -/
def resolveEntityInclude (allFixtures : List (String × Doc)) (d : Doc) :
    Except String Doc :=
  match d with
  | Doc.map es =>
      match alookup es ("@include") with
      | some (Doc.str name) =>
          (match alookup allFixtures name with
            | some fxDoc =>
                Except.ok (deepMerge ((fxDoc.lookup ("data")).getD (Doc.map []))
                  (Doc.map (removeKey es ("@include"))))
            | none => Except.error name)
      | _ => Except.ok d
  | _ => Except.ok d

/- ## Concrete instances used by the theorems -/

/-- A diamond-shaped fixture map: `A → B`, `A → C`, `B → D`, `C → D`, no
back-edges. -/
def diamondEnts : List (String × FixtureDef) :=
  [("A", { entity := "a", data := some (Doc.map [("b", Doc.str ("@B")), ("c", Doc.str ("@C"))]) }),
   ("B", { entity := "b", data := some (Doc.map [("d", Doc.str ("@D"))]) }),
   ("C", { entity := "c", data := some (Doc.map [("d", Doc.str ("@D"))]) }),
   ("D", { entity := "d", data := some (Doc.map [("x", Doc.num 1)]) })]

/-- A two-fixture mutual reference: `A.x = "@B"`, `B.y = "@A"`. -/
def mutualEnts : List (String × FixtureDef) :=
  [("A", { entity := "a", data := some (Doc.map [("x", Doc.str ("@B"))]) }),
   ("B", { entity := "b", data := some (Doc.map [("y", Doc.str ("@A"))]) })]

/-- File system with a 3-file include chain whose cycle does not pass through
the chain start: `a.yml` includes `b.yml`, `b.yml` includes `c.yml`, and
`c.yml` includes `b.yml` again. -/
def fsChain : List (String × RawDoc) :=
  [("a.yml", { includes := some ["b.yml"] }),
   ("b.yml", { includes := some ["c.yml"] }),
   ("c.yml", { includes := some ["b.yml"] })]

/-- Diamond include graph: `a.yml` includes `b.yml` and `c.yml`, both of which
include the shared `d.yml`. -/
def fsDiamond : List (String × RawDoc) :=
  [("a.yml", { includes := some ["b.yml", "c.yml"],
               fixtures := some [("a_fix", Doc.map [("entity", Doc.str ("a"))])] }),
   ("b.yml", { includes := some ["d.yml"],
               fixtures := some [("b_fix", Doc.map [("entity", Doc.str ("b"))])] }),
   ("c.yml", { includes := some ["d.yml"],
               fixtures := some [("c_fix", Doc.map [("entity", Doc.str ("c"))])] }),
   ("d.yml", { fixtures := some [("d_fix", Doc.map [("entity", Doc.str ("d"))])] })]

/-- Flat-override pair of files: the base defines `F.data = \x7ba:1, b:2\x7d`,
the includer redefines `F.data = \x7bb:3, c:4\x7d`. -/
def fsFlatOverride : List (String × RawDoc) :=
  [("base.yml", { fixtures := some (
      [("F", Doc.map [("entity", Doc.str ("customer")),
                      ("data", Doc.map [("a", Doc.num 1), ("b", Doc.num 2)])])]) }),
   ("main.yml", { includes := some ["base.yml"], fixtures := some (
      [("F", Doc.map [("entity", Doc.str ("customer")),
                      ("data", Doc.map [("b", Doc.num 3), ("c", Doc.num 4)])])]) })]

/-- Nested-override pair of files: the base defines `F.data.x = \x7ba:1, b:2\x7d`,
the includer redefines `F.data.x = \x7bb:3\x7d`. -/
def fsNestedOverride : List (String × RawDoc) :=
  [("nbase.yml", { fixtures := some (
      [("F", Doc.map [("entity", Doc.str ("product")),
                      ("data", Doc.map [("x", Doc.map [("a", Doc.num 1), ("b", Doc.num 2)])])])]) }),
   ("nmain.yml", { includes := some ["nbase.yml"], fixtures := some (
      [("F", Doc.map [("entity", Doc.str ("product")),
                      ("data", Doc.map [("x", Doc.map [("b", Doc.num 3)])])])]) })]

/- ## Helper lemmas -/

mutual

/-- The JSON round-trip clone is the identity on the pure document tree. -/
theorem cloneDoc_id : ∀ d : Doc, cloneDoc d = d
  | Doc.null => rfl
  | Doc.bool _ => rfl
  | Doc.num _ => rfl
  | Doc.str _ => rfl
  | Doc.seq l => by rw [cloneDoc, cloneList_id]
  | Doc.map es => by rw [cloneDoc, cloneEntries_id]

/-- Clone identity on sequences. -/
theorem cloneList_id : ∀ l : List Doc, cloneList l = l
  | [] => rfl
  | d :: rest => by rw [cloneList, cloneDoc_id, cloneList_id]

/-- Clone identity on entry lists. -/
theorem cloneEntries_id : ∀ es : List (String × Doc), cloneEntries es = es
  | [] => rfl
  | (k, v) :: rest => by rw [cloneEntries, cloneDoc_id, cloneEntries_id]

end

theorem alookup_jsInsert {α : Type} (l : List (String × α)) (k : String) (v : α)
    (key : String) :
    alookup (jsInsert l k v) key = if key = k then some v else alookup l key := by
  induction l with
  | nil =>
      by_cases h : key = k
      · subst h; simp [jsInsert, alookup]
      · have h2 : ¬k = key := fun hh => h hh.symm
        simp [jsInsert, alookup, h, h2]
  | cons kv rest ih =>
      obtain ⟨k', v'⟩ := kv
      by_cases hk : k' = k
      · subst hk
        by_cases h : key = k'
        · subst h; simp [jsInsert, alookup]
        · have h2 : ¬k' = key := fun hh => h hh.symm
          simp [jsInsert, alookup, h, h2]
      · by_cases h : key = k'
        · subst h
          simp [jsInsert, alookup, hk]
        · have h2 : ¬k' = key := fun hh => h hh.symm
          simp [jsInsert, alookup, hk, h2, ih]

theorem removeKey_alookup_self (es : List (String × Doc)) (p : String) :
    alookup (removeKey es p) p = none := by
  induction es with
  | nil => simp [removeKey, alookup]
  | cons kv rest ih =>
      obtain ⟨k, v⟩ := kv
      by_cases hk : k = p
      · simp [removeKey, hk, ih]
      · simp [removeKey, alookup, hk, ih]

theorem removeKey_alookup_ne (es : List (String × Doc)) (p q : String) (h : q ≠ p) :
    alookup (removeKey es p) q = alookup es q := by
  induction es with
  | nil => simp [removeKey]
  | cons kv rest ih =>
      obtain ⟨k, v⟩ := kv
      by_cases hk : k = p
      · subst hk
        simp [removeKey, alookup, Ne.symm h, ih]
      · by_cases hq : k = q <;> simp [removeKey, alookup, hk, hq, h, ih]

theorem modifyEntry_alookup_self (es : List (String × Doc)) (p : String)
    (fn : Doc → Doc) :
    alookup (modifyEntry es p fn) p = (alookup es p).map fn := by
  induction es with
  | nil => simp [modifyEntry, alookup]
  | cons kv rest ih =>
      obtain ⟨k, v⟩ := kv
      by_cases hk : k = p
      · simp [modifyEntry, alookup, hk]
      · simp [modifyEntry, alookup, hk, ih]

theorem modifyEntry_alookup_ne (es : List (String × Doc)) (p q : String)
    (fn : Doc → Doc) (h : q ≠ p) :
    alookup (modifyEntry es p fn) q = alookup es q := by
  induction es with
  | nil => simp [modifyEntry]
  | cons kv rest ih =>
      obtain ⟨k, v⟩ := kv
      by_cases hk : k = p
      · subst hk
        simp [modifyEntry, alookup, Ne.symm h, ih]
      · by_cases hq : k = q <;> simp [modifyEntry, alookup, hk, hq, h, ih]

/- ## Reachability correctness of the cycle search (claim C1 machinery) -/

theorem alookup_mem_keys {α : Type} {l : List (String × α)} {k : String} {v : α}
    (h : alookup l k = some v) : k ∈ l.map Prod.fst := by
  induction l with
  | nil => simp [alookup] at h
  | cons kv rest ih =>
      obtain ⟨k', v'⟩ := kv
      by_cases hk : k' = k
      · subst hk; simp
      · simp [alookup, hk] at h
        simp [ih h]

theorem mem_dedupFoldl (l : List (String × String)) (acc : List String) (x : String) :
    (x ∈ l.foldl (fun a fr => if a.contains fr.2 then a else a ++ [fr.2]) acc) ↔
      (x ∈ acc ∨ x ∈ l.map Prod.snd) := by
  induction l generalizing acc with
  | nil => simp
  | cons fr rest ih =>
      simp only [List.foldl_cons, ih, List.map_cons, List.mem_cons]
      by_cases hc : acc.contains fr.2
      · rw [if_pos hc]
        have : fr.2 ∈ acc := List.mem_of_elem_eq_true hc
        constructor
        · rintro (h | h)
          · exact Or.inl h
          · exact Or.inr (Or.inr h)
        · rintro (h | h | h)
          · exact Or.inl h
          · exact Or.inl (h ▸ this)
          · exact Or.inr h
      · rw [if_neg hc]
        simp only [List.mem_append, List.mem_singleton]
        tauto

theorem mem_getDirectDependencies (d : Doc) (r : String) :
    r ∈ getDirectDependencies d ↔ ∃ f, (f, r) ∈ extractRefs d := by
  rw [getDirectDependencies, mem_dedupFoldl]
  simp only [List.mem_nil_iff, false_or]
  constructor
  · intro h
    obtain ⟨⟨f, r'⟩, hmem, hr⟩ := List.mem_map.mp h
    have hr' : r' = r := hr
    subst hr'
    exact ⟨f, hmem⟩
  · rintro ⟨f, hf⟩
    exact List.mem_map.mpr ⟨(f, r), hf, rfl⟩

theorem createsCycleF_sound (ents : List (String × FixtureDef)) :
    ∀ (fuel : Nat) (source target : String) (visited : List String),
      createsCycleF ents fuel source target visited = true →
        Relation.ReflTransGen (refEdge ents) target source := by
  intro fuel
  induction fuel with
  | zero => intro _ _ _ h; simp [createsCycleF] at h
  | succ fuel ih =>
      intro source target visited h
      rw [createsCycleF] at h
      by_cases hst : source = target
      · subst hst; exact Relation.ReflTransGen.refl
      · rw [if_neg hst] at h
        by_cases hv : target ∈ visited
        · simp [hv] at h
        · rw [if_neg hv] at h
          cases hdata : entData ents target with
          | none => rw [hdata] at h; simp at h
          | some d =>
              rw [hdata] at h
              obtain ⟨dep, hdep, hconj⟩ := List.any_eq_true.mp h
              rw [Bool.and_eq_true] at hconj
              obtain ⟨hhas, hrec⟩ := hconj
              exact Relation.ReflTransGen.head
                ⟨⟨d, hdata, hdep⟩, hhas⟩
                (ih source dep (target :: visited) hrec)

theorem chain_suffix {α : Type} {r : α → α → Prop} :
    ∀ (l : List α) (c a : α), List.Chain r c l → a ∈ c :: l →
      ∃ m, List.Chain r a m ∧ (a :: m) <:+ (c :: l) := by
  intro l
  induction l with
  | nil =>
      intro c a _ hmem
      have : a = c := by simpa using hmem
      subst this
      exact ⟨[], List.Chain.nil, List.suffix_refl _⟩
  | cons d l' ih =>
      intro c a hch hmem
      rcases List.mem_cons.mp hmem with hac | hal
      · subst hac
        exact ⟨d :: l', hch, List.suffix_refl _⟩
      · obtain ⟨hcd, hch'⟩ := List.chain_cons.mp hch
        obtain ⟨m, hm, hsfx⟩ := ih d a hch' hal
        exact ⟨m, hm, hsfx.trans (List.suffix_cons c (d :: l'))⟩

theorem suffix_getLast? {α : Type} {l1 l2 : List α} (h : l1 <:+ l2) (hne : l1 ≠ []) :
    l2.getLast? = l1.getLast? := by
  obtain ⟨pre, rfl⟩ := h
  exact List.getLast?_append_of_ne_nil pre hne

theorem exists_nodup_chain {α : Type} {r : α → α → Prop} :
    ∀ (l : List α) (t : α), List.Chain r t l →
      ∃ m, List.Chain r t m ∧ (t :: m).Nodup ∧
        (t :: m).getLast? = (t :: l).getLast? ∧ ∀ x ∈ t :: m, x ∈ t :: l := by
  intro l
  induction l with
  | nil =>
      intro t _
      exact ⟨[], List.Chain.nil, List.nodup_singleton t, rfl, fun x hx => hx⟩
  | cons c l' ih =>
      intro t hch
      obtain ⟨htc, hch'⟩ := List.chain_cons.mp hch
      obtain ⟨m', hm', hnd', hlast', hsub'⟩ := ih c hch'
      by_cases ht : t ∈ c :: m'
      · obtain ⟨m2, hm2, hsfx⟩ := chain_suffix m' c t hm' ht
        refine ⟨m2, hm2, ?_, ?_, ?_⟩
        · exact hnd'.sublist hsfx.sublist
        · calc (t :: m2).getLast? = (c :: m').getLast? :=
                (suffix_getLast? hsfx (List.cons_ne_nil _ _)).symm
            _ = (c :: l').getLast? := hlast'
            _ = (t :: c :: l').getLast? := (List.getLast?_cons_cons ..).symm
        · intro x hx
          exact List.mem_cons_of_mem t (hsub' x (hsfx.sublist.mem hx))
      · refine ⟨c :: m', List.chain_cons.mpr ⟨htc, hm'⟩, ?_, ?_, ?_⟩
        · exact List.nodup_cons.mpr ⟨ht, hnd'⟩
        · calc (t :: c :: m').getLast? = (c :: m').getLast? := List.getLast?_cons_cons ..
            _ = (c :: l').getLast? := hlast'
            _ = (t :: c :: l').getLast? := (List.getLast?_cons_cons ..).symm
        · intro x hx
          rcases List.mem_cons.mp hx with hxt | hxm
          · exact hxt ▸ List.mem_cons_self _ _
          · exact List.mem_cons_of_mem t (hsub' x hxm)

theorem entHas_mem_keys {ents : List (String × FixtureDef)} {n : String}
    (h : entHas ents n = true) : n ∈ ents.map Prod.fst := by
  rw [entHas, Option.isSome_iff_exists] at h
  obtain ⟨fx, hfx⟩ := h
  exact alookup_mem_keys hfx

theorem entData_mem_keys {ents : List (String × FixtureDef)} {n : String} {d : Doc}
    (h : entData ents n = some d) : n ∈ ents.map Prod.fst := by
  rw [entData] at h
  cases hfx : alookup ents n with
  | none => rw [hfx] at h; simp at h
  | some fx => exact alookup_mem_keys hfx

theorem refEdge_mem_left {ents : List (String × FixtureDef)} {a b : String}
    (h : refEdge ents a b) : a ∈ ents.map Prod.fst := by
  obtain ⟨⟨d, hd, _⟩, _⟩ := h
  exact entData_mem_keys hd

theorem refEdge_mem_right {ents : List (String × FixtureDef)} {a b : String}
    (h : refEdge ents a b) : b ∈ ents.map Prod.fst := by
  obtain ⟨_, hhas⟩ := h
  exact entHas_mem_keys hhas

theorem nodup_subset_length_le {l names : List String} (hnd : l.Nodup)
    (hsub : ∀ x ∈ l, x ∈ names) : l.length ≤ names.length := by
  calc l.length = l.toFinset.card := (List.toFinset_card_of_nodup hnd).symm
    _ ≤ names.toFinset.card := Finset.card_le_card fun x hx =>
        List.mem_toFinset.mpr (hsub x (List.mem_toFinset.mp hx))
    _ ≤ names.length := List.toFinset_card_le names

theorem createsCycleF_complete_chain (ents : List (String × FixtureDef)) (s : String) :
    ∀ (l : List String) (t : String) (visited : List String) (fuel : Nat),
      List.Chain (refEdge ents) t l → (t :: l).getLast? = some s →
      (t :: l).Nodup → (∀ x ∈ t :: l, x ∉ visited) → (t :: l).length ≤ fuel →
      createsCycleF ents fuel s t visited = true := by
  intro l
  induction l with
  | nil =>
      intro t visited fuel _ hlast _ _ hlen
      have hts : t = s := by simpa using hlast
      subst hts
      obtain ⟨fuel', rfl⟩ : ∃ f, fuel = f + 1 := by
        cases fuel with
        | zero => simp at hlen
        | succ f => exact ⟨f, rfl⟩
      rw [createsCycleF, if_pos rfl]
  | cons t1 l' ih =>
      intro t visited fuel hch hlast hnd hvis hlen
      obtain ⟨hedge, hch'⟩ := List.chain_cons.mp hch
      obtain ⟨fuel', rfl⟩ : ∃ f, fuel = f + 1 := by
        cases fuel with
        | zero => simp at hlen
        | succ f => exact ⟨f, rfl⟩
      rw [createsCycleF]
      by_cases hst : s = t
      · rw [if_pos hst]
      · rw [if_neg hst, if_neg (hvis t (List.mem_cons_self t _))]
        obtain ⟨⟨d, hd, hdep⟩, hhas⟩ := hedge
        rw [hd]
        apply List.any_eq_true.mpr
        refine ⟨t1, hdep, ?_⟩
        rw [Bool.and_eq_true]
        refine ⟨hhas, ih t1 (t :: visited) fuel' hch' ?_ (List.Nodup.of_cons hnd) ?_ ?_⟩
        · rw [← List.getLast?_cons_cons (a := t)]
          exact hlast
        · intro x hx
          rw [List.mem_cons]
          rintro (hxt | hxv)
          · subst hxt
            exact (List.nodup_cons.mp hnd).1 hx
          · exact hvis x (List.mem_cons_of_mem t hx) hxv
        · simpa using Nat.succ_le_succ_iff.mp (by simpa using hlen)

theorem createsCycle_complete (ents : List (String × FixtureDef)) {source target : String}
    (h : Relation.ReflTransGen (refEdge ents) target source) :
    createsCycle ents source target = true := by
  obtain ⟨l, hch, hlast⟩ := List.exists_chain_of_relationReflTransGen h
  have hlast? : (target :: l).getLast? = some source := by
    rw [List.getLast?_eq_getLast_of_ne_nil (List.cons_ne_nil _ _)]
    exact congrArg some hlast
  obtain ⟨m, hm, hnd, hlastm, hsub⟩ := exists_nodup_chain l target hch
  have hlastm? : (target :: m).getLast? = some source := by rw [hlastm]; exact hlast?
  have hlen : (target :: m).length ≤ ents.length + 1 := by
    cases m with
    | nil => simp
    | cons m0 m' =>
        have hnames : ∀ x ∈ target :: m0 :: m', x ∈ ents.map Prod.fst := by
          intro x hx
          rcases List.mem_cons.mp hx with hxt | hxm
          · subst hxt
            exact refEdge_mem_left (List.chain_cons.mp hm).1
          · exact List.Chain.induction (fun y => y ∈ ents.map Prod.fst) _ hm
              (fun a b hab _ => refEdge_mem_right hab)
              (refEdge_mem_left (List.chain_cons.mp hm).1) x hxm
        have := nodup_subset_length_le hnd hnames
        rw [List.length_map] at this
        omega
  exact createsCycleF_complete_chain ents source m target [] (ents.length + 1)
    hm hlastm? hnd (by simp) hlen

/- ## Claim theorems -/

/-- C1: a candidate edge from fixture `name` to fixture `r` is classified as
deferred iff `r` has a transitive dependency path back to `name` through the
direct-reference graph (reflexivity covering the trivial self-reference
cycle), and in the diamond `A→B, A→C, B→D, C→D` with no back-edges no fixture
gets any deferred field. -/
theorem c1_deferred_iff_cycle :
    (∀ (ents : List (String × FixtureDef)) (name : String) (d : Doc) (f r : String),
      (f, r) ∈ classifyDeferred ents name d ↔
        ((f, r) ∈ extractRefs d ∧ entHas ents r = true ∧
          Relation.ReflTransGen (refEdge ents) r name)) ∧
    (classifyDeferred diamondEnts ("A")
        (Doc.map [("b", Doc.str ("@B")), ("c", Doc.str ("@C"))]) = [] ∧
     classifyDeferred diamondEnts ("B") (Doc.map [("d", Doc.str ("@D"))]) = [] ∧
     classifyDeferred diamondEnts ("C") (Doc.map [("d", Doc.str ("@D"))]) = [] ∧
     classifyDeferred diamondEnts ("D") (Doc.map [("x", Doc.num 1)]) = []) := by
  constructor
  · intro ents name d f r
    rw [classifyDeferred, List.mem_filter]
    constructor
    · rintro ⟨hmem, hcond⟩
      rw [Bool.and_eq_true] at hcond
      exact ⟨hmem, hcond.1, createsCycleF_sound ents _ name r [] hcond.2⟩
    · rintro ⟨hmem, hhas, hreach⟩
      refine ⟨hmem, ?_⟩
      rw [Bool.and_eq_true]
      exact ⟨hhas, createsCycle_complete ents hreach⟩
  · exact ⟨by decide, by decide, by decide, by decide⟩

/- ## Field-removal lemmas (claim C4 machinery) -/

theorem lookup_none_of_falsy {v : Doc} (h : jsTruthy v = false) (k : String) :
    v.lookup k = none := by
  cases v <;> simp_all [jsTruthy, Doc.lookup]

theorem getPath_none_of_falsy {v : Doc} (h : jsTruthy v = false) :
    ∀ (parts : List String), parts ≠ [] → getPath v parts = none := by
  intro parts hne
  cases parts with
  | nil => exact absurd rfl hne
  | cons k rest => rw [getPath, lookup_none_of_falsy h]

theorem getPath_removeFieldParts_self :
    ∀ (parts : List String) (d : Doc), parts ≠ [] →
      getPath (removeFieldParts d parts) parts = none
  | [], _, h => absurd rfl h
  | [p], d, _ => by
      cases d <;> simp [removeFieldParts, getPath, Doc.lookup, removeKey_alookup_self]
  | p :: r0 :: rs, d, _ => by
      cases d with
      | map es =>
          rw [removeFieldParts]
          cases hl : alookup es p with
          | some v =>
              cases ht : jsTruthy v with
              | true =>
                  simp only [hl, ht, if_true]
                  rw [getPath, Doc.lookup, modifyEntry_alookup_self, hl, Option.map_some']
                  exact getPath_removeFieldParts_self (r0 :: rs) v (List.cons_ne_nil _ _)
              | false =>
                  simp only [hl, ht, if_false, Bool.false_eq_true]
                  rw [getPath, Doc.lookup, hl]
                  exact getPath_none_of_falsy ht (r0 :: rs) (List.cons_ne_nil _ _)
          | none =>
              simp only [hl]
              rw [getPath, Doc.lookup, hl]
      | null => simp [removeFieldParts, getPath, Doc.lookup]
      | bool b => simp [removeFieldParts, getPath, Doc.lookup]
      | num n => simp [removeFieldParts, getPath, Doc.lookup]
      | str s => simp [removeFieldParts, getPath, Doc.lookup]
      | seq l => simp [removeFieldParts, getPath, Doc.lookup]

theorem getPath_removeFieldParts_none :
    ∀ (parts : List String) (d : Doc) (q : List String), getPath d q = none →
      getPath (removeFieldParts d parts) q = none
  | [], d, q, h => by rwa [removeFieldParts]
  | [p], d, q, h => by
      cases d with
      | map es =>
          cases q with
          | nil => rw [getPath] at h; exact absurd h (by simp)
          | cons q0 qr =>
              rw [removeFieldParts, getPath, Doc.lookup]
              by_cases hq : q0 = p
              · rw [hq, removeKey_alookup_self]
              · rw [removeKey_alookup_ne es p q0 hq]
                rw [getPath, Doc.lookup] at h
                exact h
      | null => simpa only [removeFieldParts] using h
      | bool b => simpa only [removeFieldParts] using h
      | num n => simpa only [removeFieldParts] using h
      | str s => simpa only [removeFieldParts] using h
      | seq l => simpa only [removeFieldParts] using h
  | p :: r0 :: rs, d, q, h => by
      cases d with
      | map es =>
          cases q with
          | nil => rw [getPath] at h; exact absurd h (by simp)
          | cons q0 qr =>
              rw [removeFieldParts]
              cases hl : alookup es p with
              | some v =>
                  cases ht : jsTruthy v with
                  | true =>
                      simp only [hl, ht, if_true]
                      rw [getPath, Doc.lookup]
                      by_cases hq : q0 = p
                      · subst hq
                        rw [modifyEntry_alookup_self, hl, Option.map_some']
                        rw [getPath, Doc.lookup, hl] at h
                        exact getPath_removeFieldParts_none (r0 :: rs) v qr h
                      · rw [modifyEntry_alookup_ne es p q0 _ hq]
                        rw [getPath, Doc.lookup] at h
                        exact h
                  | false => simpa only [hl, ht, if_false, Bool.false_eq_true] using h
              | none => simpa only [hl] using h
      | null => simpa only [removeFieldParts] using h
      | bool b => simpa only [removeFieldParts] using h
      | num n => simpa only [removeFieldParts] using h
      | str s => simpa only [removeFieldParts] using h
      | seq l => simpa only [removeFieldParts] using h

theorem getPath_removeFieldParts_incomp :
    ∀ (parts : List String) (d : Doc) (q : List String),
      ¬ (parts <+: q) → ¬ (q <+: parts) →
      getPath (removeFieldParts d parts) q = getPath d q
  | [], _, q, hpq, _ => absurd (List.nil_prefix) hpq
  | _ :: _, d, [], _, hqp => absurd (List.nil_prefix) hqp
  | [p], d, q0 :: qr, hpq, hqp => by
      have hq : q0 ≠ p := by
        rintro rfl
        cases qr with
        | nil => exact hqp (List.prefix_refl _)
        | cons a b => exact hpq (List.cons_prefix_cons.mpr ⟨rfl, List.nil_prefix⟩)
      cases d with
      | map es =>
          rw [removeFieldParts, getPath, Doc.lookup, removeKey_alookup_ne es p q0 hq,
            getPath, Doc.lookup]
      | null => simp only [removeFieldParts]
      | bool b => simp only [removeFieldParts]
      | num n => simp only [removeFieldParts]
      | str s => simp only [removeFieldParts]
      | seq l => simp only [removeFieldParts]
  | p :: r0 :: rs, d, q0 :: qr, hpq, hqp => by
      cases d with
      | map es =>
          rw [removeFieldParts]
          cases hl : alookup es p with
          | some v =>
              cases ht : jsTruthy v with
              | true =>
                  simp only [hl, ht, if_true]
                  by_cases hq : q0 = p
                  · subst hq
                    have hrq : ¬ ((r0 :: rs) <+: qr) := fun hc =>
                      hpq (List.cons_prefix_cons.mpr ⟨rfl, hc⟩)
                    have hqr : ¬ (qr <+: (r0 :: rs)) := fun hc =>
                      hqp (List.cons_prefix_cons.mpr ⟨rfl, hc⟩)
                    rw [getPath, Doc.lookup, modifyEntry_alookup_self, hl, Option.map_some',
                      getPath, Doc.lookup, hl]
                    exact getPath_removeFieldParts_incomp (r0 :: rs) v qr hrq hqr
                  · rw [getPath, Doc.lookup, modifyEntry_alookup_ne es p q0 _ hq,
                      getPath, Doc.lookup]
              | false => simp only [hl, ht, if_false, Bool.false_eq_true]
          | none => simp only [hl]
      | null => simp only [removeFieldParts]
      | bool b => simp only [removeFieldParts]
      | num n => simp only [removeFieldParts]
      | str s => simp only [removeFieldParts]
      | seq l => simp only [removeFieldParts]

theorem splitOnDotGo_ne_nil : ∀ (cs acc : List Char), splitOnDotGo cs acc ≠ [] := by
  intro cs
  induction cs with
  | nil => intro acc; simp [splitOnDotGo]
  | cons c rest ih =>
      intro acc
      by_cases hc : c = '.'
      · subst hc; simp [splitOnDotGo]
      · rw [splitOnDotGo.eq_def]
        split
        · simp
        · simp
        · simp_all

theorem splitOnDot_ne_nil (path : String) : splitOnDot path ≠ [] :=
  splitOnDotGo_ne_nil path.data []

theorem getPath_foldRemove_none (fs : List (String × String)) :
    ∀ (d : Doc) (q : List String), getPath d q = none →
      getPath (fs.foldl (fun acc fr => removeField acc fr.1) d) q = none := by
  induction fs with
  | nil => intro d q h; exact h
  | cons fr rest ih =>
      intro d q h
      exact ih (removeField d fr.1) q (getPath_removeFieldParts_none _ d q h)

theorem getPath_foldRemove_self (fs : List (String × String)) :
    ∀ (d : Doc) (fr : String × String), fr ∈ fs →
      getPath (fs.foldl (fun acc fr => removeField acc fr.1) d) (splitOnDot fr.1) = none := by
  induction fs with
  | nil => intro d fr h; simp at h
  | cons g rest ih =>
      intro d fr h
      rcases List.mem_cons.mp h with hg | hmem
      · subst hg
        exact getPath_foldRemove_none rest (removeField d fr.1) (splitOnDot fr.1)
          (getPath_removeFieldParts_self (splitOnDot fr.1) d (splitOnDot_ne_nil fr.1))
      · exact ih (removeField d g.1) fr hmem

theorem getPath_foldRemove_incomp (fs : List (String × String)) :
    ∀ (d : Doc) (q : List String),
      (∀ fr ∈ fs, ¬ (splitOnDot fr.1 <+: q) ∧ ¬ (q <+: splitOnDot fr.1)) →
      getPath (fs.foldl (fun acc fr => removeField acc fr.1) d) q = getPath d q := by
  induction fs with
  | nil => intro d q _; rfl
  | cons g rest ih =>
      intro d q hin
      have hg := hin g (List.mem_cons_self _ _)
      simp only [List.foldl_cons]
      rw [ih (removeField d g.1) q fun fr hfr => hin fr (List.mem_cons_of_mem _ hfr)]
      exact getPath_removeFieldParts_incomp (splitOnDot g.1) d q hg.1 hg.2

/-- C4: for a non-existing plan entry with (truthy) data, the phase-1 initial
data is the deep clone of the entry's data in which every deferred field's
dotted path has been removed entirely — looking the path up afterwards finds
nothing, not a blanked `null` — while every path that neither extends nor is
extended by any deferred field's path is unchanged from the original data. -/
theorem c4_initial_data_removal (e : ProcessingEntity) (d : Doc)
    (hd : e.fixture.data = some d) (ht : jsTruthy d = true) :
    (∀ fr ∈ e.deferredFields, getPath (getInitialData e) (splitOnDot fr.1) = none) ∧
    (∀ q : List String,
      (∀ fr ∈ e.deferredFields, ¬ (splitOnDot fr.1 <+: q) ∧ ¬ (q <+: splitOnDot fr.1)) →
      getPath (getInitialData e) q = getPath d q) := by
  have hinit : getInitialData e =
      e.deferredFields.foldl (fun acc fr => removeField acc fr.1) d := by
    simp only [getInitialData, hd, ht, if_true, cloneDoc_id]
  constructor
  · intro fr hfr
    rw [hinit]
    exact getPath_foldRemove_self e.deferredFields d fr hfr
  · intro q hq
    rw [hinit]
    exact getPath_foldRemove_incomp e.deferredFields d q hq

/-- Witness for C4 at a concrete entry: the deferred field `a` is absent from
the initial data while the untouched field `b` keeps its original value. -/
theorem c4_initial_data_removal_witness :
    getPath (getInitialData
      ⟨"A", ⟨"a", some (Doc.map [("a", Doc.str ("@B")), ("b", Doc.num 7)]), false, none⟩,
        Phase.pending, none, [("a", "B")]⟩) [("a")] = none ∧
    getPath (getInitialData
      ⟨"A", ⟨"a", some (Doc.map [("a", Doc.str ("@B")), ("b", Doc.num 7)]), false, none⟩,
        Phase.pending, none, [("a", "B")]⟩) [("b")] = some (Doc.num 7) := by
  constructor
  · have h := (c4_initial_data_removal
      ⟨"A", ⟨"a", some (Doc.map [("a", Doc.str ("@B")), ("b", Doc.num 7)]), false, none⟩,
        Phase.pending, none, [("a", "B")]⟩
      (Doc.map [("a", Doc.str ("@B")), ("b", Doc.num 7)]) rfl rfl).1
      ("a", "B") (by decide)
    simpa using h
  · have h := (c4_initial_data_removal
      ⟨"A", ⟨"a", some (Doc.map [("a", Doc.str ("@B")), ("b", Doc.num 7)]), false, none⟩,
        Phase.pending, none, [("a", "B")]⟩
      (Doc.map [("a", Doc.str ("@B")), ("b", Doc.num 7)]) rfl rfl).2
      [("b")] (by decide)
    rw [h]
    rfl

/-- C2: a fixture key matching the repeat pattern with `start ≤ end` expands
into exactly `end - start + 1` entries named `base_i` for `i` in the inclusive
range, each carrying a deep-cloned copy of the template's data (the clone of
truthy data equals the template's data value, and distinct copies are
independent values in this pure model), while a non-matching key passes
through unchanged — also through the full `expandMultiInsertionFixtures`. -/
theorem c2_repeat_expansion (key base : String) (s e : Nat) (fx : FixtureDef)
    (hp : parseRepeatKey key = some (base, s, e)) (hse : s ≤ e) :
    (expandEntry (key, fx)).length = e - s + 1 ∧
    (expandEntry (key, fx)).map Prod.fst =
      (List.range' s (e + 1 - s)).map (fun i => base ++ ("_") ++ toString i) ∧
    (∀ p ∈ expandEntry (key, fx), p.2 = { fx with data := jsCloneOpt fx.data }) ∧
    (∀ d, fx.data = some d → jsTruthy d = true →
      ∀ p ∈ expandEntry (key, fx), p.2.data = some d) ∧
    (∀ (key2 : String) (fx2 : FixtureDef), parseRepeatKey key2 = none →
      expandEntry (key2, fx2) = [(key2, fx2)] ∧
      expandMultiInsertionFixtures [(key2, fx2)] = [(key2, fx2)]) := by
  have hexp : expandEntry (key, fx) =
      (List.range' s (e + 1 - s)).map fun i =>
        (base ++ ("_") ++ toString i, { fx with data := jsCloneOpt fx.data }) := by
    simp only [expandEntry, hp]
  refine ⟨?_, ?_, ?_, ?_, ?_⟩
  · rw [hexp, List.length_map, List.length_range']
    omega
  · rw [hexp, List.map_map]
    rfl
  · intro p hp2
    rw [hexp] at hp2
    obtain ⟨i, _, hi⟩ := List.mem_map.mp hp2
    rw [← hi]
  · intro d hd ht p hp2
    rw [hexp] at hp2
    obtain ⟨i, _, hi⟩ := List.mem_map.mp hp2
    rw [← hi]
    simp [jsCloneOpt, hd, ht, cloneDoc_id]
  · intro key2 fx2 hnone
    have h1 : expandEntry (key2, fx2) = [(key2, fx2)] := by
      simp only [expandEntry, hnone]
    refine ⟨h1, ?_⟩
    simp only [expandMultiInsertionFixtures, List.foldl_cons, List.foldl_nil, h1]
    rfl

/-- Witness for C2: the key `item_(2...4)` (with braces) yields the three
entries `item_2`, `item_3`, `item_4`, each with the template's data. -/
theorem c2_repeat_expansion_witness :
    (expandEntry (("item_\x7b2...4\x7d"),
      ⟨"item", some (Doc.map [("n", Doc.num 1)]), false, none⟩)).length = 3 ∧
    (expandEntry (("item_\x7b2...4\x7d"),
      ⟨"item", some (Doc.map [("n", Doc.num 1)]), false, none⟩)).map Prod.fst =
      [("item_2"), ("item_3"), ("item_4")] ∧
    (∀ p ∈ expandEntry (("item_\x7b2...4\x7d"),
      ⟨"item", some (Doc.map [("n", Doc.num 1)]), false, none⟩),
      p.2.data = some (Doc.map [("n", Doc.num 1)])) := by
  have h := c2_repeat_expansion ("item_\x7b2...4\x7d") ("item") 2 4
    ⟨"item", some (Doc.map [("n", Doc.num 1)]), false, none⟩ (by decide) (by decide)
  refine ⟨h.1, ?_, ?_⟩
  · rw [h.2.1]
    rfl
  · intro p hp2
    exact h.2.2.2.1 (Doc.map [("n", Doc.num 1)]) rfl rfl p hp2

/- ## Entity-include merge lemmas (claim C3) -/

theorem alookup_eq_none {α : Type} (l : List (String × α)) (k : String)
    (h : k ∉ l.map Prod.fst) : alookup l k = none := by
  induction l with
  | nil => rfl
  | cons kv rest ih =>
      obtain ⟨k', v'⟩ := kv
      simp only [List.map_cons, List.mem_cons] at h
      push_neg at h
      rw [alookup, if_neg (fun hh => h.1 hh.symm)]
      exact ih h.2

theorem alookup_append {α : Type} (l1 l2 : List (String × α)) (k : String) :
    alookup (l1 ++ l2) k =
      match alookup l1 k with
      | some v => some v
      | none => alookup l2 k := by
  induction l1 with
  | nil => rfl
  | cons kv rest ih =>
      obtain ⟨k', v'⟩ := kv
      by_cases hk : k' = k
      · simp [alookup, hk]
      · simp only [List.cons_append, alookup, if_neg hk]
        exact ih

theorem deepMergeInto_alookup :
    ∀ (os : List (String × Doc)), (os.map Prod.fst).Nodup →
      ∀ (bs : List (String × Doc)) (k : String),
        alookup (deepMergeInto bs os) k =
          match alookup os k, alookup bs k with
          | some ov, some bv => some (deepMerge bv ov)
          | some ov, none => some ov
          | none, some bv => some bv
          | none, none => none := by
  intro os
  induction os with
  | nil =>
      intro _ bs k
      rw [deepMergeInto, alookup]
      cases alookup bs k <;> rfl
  | cons kv rest ih =>
      obtain ⟨k0, ov0⟩ := kv
      intro hnd bs k
      simp only [List.map_cons, List.nodup_cons] at hnd
      rw [deepMergeInto]
      cases hbs0 : alookup bs k0 with
      | some bv =>
          simp only [hbs0]
          rw [ih hnd.2]
          by_cases hk : k = k0
          · subst hk
            rw [alookup_eq_none rest k hnd.1, modifyEntry_alookup_self, hbs0,
              Option.map_some', alookup, if_pos rfl]
          · rw [modifyEntry_alookup_ne bs k0 k _ hk, alookup,
              if_neg (fun hh => hk hh.symm)]
      | none =>
          simp only [hbs0]
          rw [ih hnd.2]
          by_cases hk : k = k0
          · subst hk
            rw [alookup_eq_none rest k hnd.1, alookup_append, hbs0]
            simp [alookup]
          · have hne : ¬ k0 = k := fun hh => hk hh.symm
            simp only [alookup_append, alookup, if_neg hne]
            cases alookup bs k <;> cases alookup rest k <;> rfl

/-- C3 (modelled from the spec, see `resolveEntityInclude`): a record whose
data carries the entity-level include directive naming fixture `nm` resolves,
when `nm` is present in the merged map, to the deep merge of that fixture's
data underneath the record's own remaining fields — for every key the
record's own value wins (recursively merged when both sides are mappings,
taken outright otherwise, as the last conjunct shows for non-mapping current
values), keys only in the base survive, and the directive key itself is gone;
when `nm` is absent the resolution errors naming exactly the missing key.
Records are resolved independently, so several records may include the same
base with different overrides. -/
theorem c3_entity_include_merge (allFx : List (String × Doc))
    (es : List (String × Doc)) (nm : String)
    (hinc : alookup es ("@include") = some (Doc.str nm))
    (hnd : (((removeKey es ("@include")).map Prod.fst)).Nodup) :
    (alookup allFx nm = none →
      resolveEntityInclude allFx (Doc.map es) = Except.error nm) ∧
    (∀ (fxDoc : Doc) (bs : List (String × Doc)),
      alookup allFx nm = some fxDoc →
      (fxDoc.lookup ("data")).getD (Doc.map []) = Doc.map bs →
      resolveEntityInclude allFx (Doc.map es) =
        Except.ok (Doc.map (deepMergeInto bs (removeKey es ("@include")))) ∧
      (∀ k, alookup (deepMergeInto bs (removeKey es ("@include"))) k =
        match alookup (removeKey es ("@include")) k, alookup bs k with
        | some cv, some bv => some (deepMerge bv cv)
        | some cv, none => some cv
        | none, some bv => some bv
        | none, none => none) ∧
      (alookup bs ("@include") = none →
        alookup (deepMergeInto bs (removeKey es ("@include"))) ("@include") = none)) ∧
    (∀ bv cv : Doc, (∀ os2, cv ≠ Doc.map os2) → deepMerge bv cv = cv) := by
  refine ⟨?_, ?_, ?_⟩
  · intro hnone
    simp only [resolveEntityInclude, hinc, hnone]
  · intro fxDoc bs hsome hbs
    have hchar := deepMergeInto_alookup (removeKey es ("@include")) hnd bs
    refine ⟨?_, hchar, ?_⟩
    · have h1 : resolveEntityInclude allFx (Doc.map es) =
          Except.ok (deepMerge (Doc.map bs) (Doc.map (removeKey es ("@include")))) := by
        simp only [resolveEntityInclude, hinc, hsome, hbs]
      rw [h1, deepMerge]
    · intro hbase
      rw [hchar ("@include"), removeKey_alookup_self, hbase]
  · intro bv cv hcv
    cases cv with
    | map os2 => exact absurd rfl (hcv os2)
    | null => cases bv <;> rfl
    | bool b => cases bv <;> rfl
    | num n => cases bv <;> rfl
    | str s => cases bv <;> rfl
    | seq l => cases bv <;> rfl

/-- Witness for C3: the order record including `default_customer` gets the
merged data — its own `firstName` wins, the base's `lastName` survives, the
directive key is gone — and including a missing name errors with that name. -/
theorem c3_entity_include_merge_witness :
    resolveEntityInclude
      [("default_customer", Doc.map [("entity", Doc.str ("customer")),
        ("data", Doc.map [("firstName", Doc.str ("Base")), ("lastName", Doc.str ("Last"))])])]
      (Doc.map [("@include", Doc.str ("default_customer")),
        ("firstName", Doc.str ("Override")), ("orderNumber", Doc.str ("ORD-001"))]) =
      Except.ok (Doc.map (deepMergeInto
        [("firstName", Doc.str ("Base")), ("lastName", Doc.str ("Last"))]
        (removeKey [("@include", Doc.str ("default_customer")),
          ("firstName", Doc.str ("Override")), ("orderNumber", Doc.str ("ORD-001"))]
          ("@include")))) ∧
    alookup (deepMergeInto
        [("firstName", Doc.str ("Base")), ("lastName", Doc.str ("Last"))]
        (removeKey [("@include", Doc.str ("default_customer")),
          ("firstName", Doc.str ("Override")), ("orderNumber", Doc.str ("ORD-001"))]
          ("@include"))) ("firstName") = some (Doc.str ("Override")) ∧
    alookup (deepMergeInto
        [("firstName", Doc.str ("Base")), ("lastName", Doc.str ("Last"))]
        (removeKey [("@include", Doc.str ("default_customer")),
          ("firstName", Doc.str ("Override")), ("orderNumber", Doc.str ("ORD-001"))]
          ("@include"))) ("lastName") = some (Doc.str ("Last")) ∧
    alookup (deepMergeInto
        [("firstName", Doc.str ("Base")), ("lastName", Doc.str ("Last"))]
        (removeKey [("@include", Doc.str ("default_customer")),
          ("firstName", Doc.str ("Override")), ("orderNumber", Doc.str ("ORD-001"))]
          ("@include"))) ("@include") = none ∧
    resolveEntityInclude
      [("default_customer", Doc.map [("entity", Doc.str ("customer"))])]
      (Doc.map [("@include", Doc.str ("missing_key"))]) =
      Except.error ("missing_key") := by
  have h := c3_entity_include_merge
    [("default_customer", Doc.map [("entity", Doc.str ("customer")),
      ("data", Doc.map [("firstName", Doc.str ("Base")), ("lastName", Doc.str ("Last"))])])]
    [("@include", Doc.str ("default_customer")),
      ("firstName", Doc.str ("Override")), ("orderNumber", Doc.str ("ORD-001"))]
    ("default_customer") rfl (by decide)
  have h2 := h.2.1 (Doc.map [("entity", Doc.str ("customer")),
      ("data", Doc.map [("firstName", Doc.str ("Base")), ("lastName", Doc.str ("Last"))])])
    [("firstName", Doc.str ("Base")), ("lastName", Doc.str ("Last"))] rfl rfl
  have hmiss := (c3_entity_include_merge
    [("default_customer", Doc.map [("entity", Doc.str ("customer"))])]
    [("@include", Doc.str ("missing_key"))] ("missing_key") rfl (by decide)).1 rfl
  refine ⟨h2.1, ?_, ?_, h2.2.2 rfl, hmiss⟩
  · rw [h2.2.1 ("firstName")]
    rfl
  · rw [h2.2.1 ("lastName")]
    rfl

/- ## Phase-2 lemmas (claim C5) -/

theorem foldDeferred_alookup (refs : List (String × Doc)) :
    ∀ (fs : List (String × String)) (acc : List (String × Doc)) (g : String),
      (fs.map Prod.fst).Nodup →
      (∀ x ∈ fs.map Prod.fst, alookup acc x = none) →
      alookup (fs.foldl (fun acc fr =>
        match alookup refs fr.2 with
        | some v => jsInsert acc fr.1 v
        | none => acc) acc) g =
      (match alookup fs g with
        | some r => alookup refs r
        | none => alookup acc g) := by
  intro fs
  induction fs with
  | nil => intro acc g _ _; rfl
  | cons fr rest ih =>
      obtain ⟨f0, r0⟩ := fr
      intro acc g hnd hdisj
      simp only [List.map_cons, List.nodup_cons] at hnd
      rw [List.foldl_cons]
      cases hr0 : alookup refs r0 with
      | some v =>
          simp only [hr0]
          rw [ih (jsInsert acc f0 v) g hnd.2 ?side]
          case side =>
            intro x hx
            rw [alookup_jsInsert, if_neg (fun (hh : x = f0) => hnd.1 (hh ▸ hx))]
            exact hdisj x (List.mem_cons_of_mem _ hx)
          by_cases hg : g = f0
          · subst hg
            simp [alookup_eq_none rest g hnd.1, alookup_jsInsert, alookup, hr0]
          · have hne : ¬ f0 = g := fun hh => hg hh.symm
            simp only [alookup_jsInsert, if_neg hg, alookup, if_neg hne]
      | none =>
          simp only [hr0]
          rw [ih acc g hnd.2 (fun x hx => hdisj x (List.mem_cons_of_mem _ hx))]
          by_cases hg : g = f0
          · subst hg
            simp [alookup_eq_none rest g hnd.1, alookup, hr0,
              hdisj g (List.mem_cons_self _ _)]
          · have hne : ¬ f0 = g := fun hh => hg hh.symm
            simp only [alookup, if_neg hne]

/-- C5: in phase 2, a deferred field whose referenced fixture is present in
the reference map contributes `field -> resolved value` to the update payload
and one whose reference is absent is silently omitted (the payload lookup
rule below), an update call is issued iff the entry is in `created` phase and
the payload is non-empty, exactly the entries with an issued update move from
`created` to `updated`, and all other entries are untouched. -/
theorem c5_deferred_updates (refs : List (String × Doc)) (e : ProcessingEntity)
    (hnd : (e.deferredFields.map Prod.fst).Nodup) :
    (∀ f, alookup (getDeferredUpdates refs e) f =
      (match alookup e.deferredFields f with
        | some r => alookup refs r
        | none => none)) ∧
    ((phase2Step refs e).2 ≠ [] ↔
      (e.phase = Phase.created ∧ getDeferredUpdates refs e ≠ [])) ∧
    ((phase2Step refs e).1.phase = Phase.updated ↔
      (e.phase = Phase.updated ∨
        (e.phase = Phase.created ∧ getDeferredUpdates refs e ≠ []))) ∧
    (¬ (e.phase = Phase.created ∧ getDeferredUpdates refs e ≠ []) →
      (phase2Step refs e).1 = e ∧ (phase2Step refs e).2 = []) ∧
    ((phase2Step refs e).2 ≠ [] →
      (phase2Step refs e).2 = [ApiCall.patch (getEntityEndpoint e.fixture.entity)
        (match e.entity with | some i => i | none => "")
        (Doc.map (getDeferredUpdates refs e))]) := by
  have hchar : ∀ f, alookup (getDeferredUpdates refs e) f =
      (match alookup e.deferredFields f with
        | some r => alookup refs r
        | none => none) := by
    intro f
    rw [getDeferredUpdates, foldDeferred_alookup refs e.deferredFields [] f hnd
      (fun x _ => rfl)]
    cases alookup e.deferredFields f with
    | some r => rfl
    | none => rfl
  have hemp : (getDeferredUpdates refs e).isEmpty = true ↔
      getDeferredUpdates refs e = [] := List.isEmpty_iff
  refine ⟨hchar, ?_, ?_, ?_, ?_⟩ <;> rw [phase2Step]
  · by_cases hp : e.phase = Phase.created <;>
      by_cases hu : (getDeferredUpdates refs e).isEmpty <;>
        simp_all [List.isEmpty_iff]
  · by_cases hp : e.phase = Phase.created
    · rw [if_pos hp]
      by_cases hu : (getDeferredUpdates refs e).isEmpty
      · have h0 : getDeferredUpdates refs e = [] := hemp.mp hu
        simp [hu, hp, h0]
      · simp [hu, hp]
        exact fun hcon => hu (hemp.mpr hcon)
    · rw [if_neg hp]
      simp only [hp, false_and, or_false]
  · intro hno
    by_cases hp : e.phase = Phase.created
    · rw [if_pos hp]
      have hu : (getDeferredUpdates refs e).isEmpty := by
        by_contra hcon
        exact hno ⟨hp, fun h0 => hcon (hemp.mpr h0)⟩
      simp [hu]
    · simp [hp]
  · by_cases hp : e.phase = Phase.created
    · rw [if_pos hp]
      by_cases hu : (getDeferredUpdates refs e).isEmpty <;> simp [hu]
    · simp [hp]

/-- Witness for C5: with `B` resolved in the reference map and `C` absent, the
payload carries `x` and omits `y`, an update is issued, and the entry moves to
`updated`. -/
theorem c5_deferred_updates_witness :
    alookup (getDeferredUpdates [("B", Doc.str ("id-b"))]
      ⟨"A", ⟨"a", some (Doc.map [("x", Doc.str ("@B")), ("y", Doc.str ("@C"))]), false, none⟩,
        Phase.created, some ("id-a"), [("x", "B"), ("y", "C")]⟩) ("x") =
      some (Doc.str ("id-b")) ∧
    alookup (getDeferredUpdates [("B", Doc.str ("id-b"))]
      ⟨"A", ⟨"a", some (Doc.map [("x", Doc.str ("@B")), ("y", Doc.str ("@C"))]), false, none⟩,
        Phase.created, some ("id-a"), [("x", "B"), ("y", "C")]⟩) ("y") = none ∧
    (phase2Step [("B", Doc.str ("id-b"))]
      ⟨"A", ⟨"a", some (Doc.map [("x", Doc.str ("@B")), ("y", Doc.str ("@C"))]), false, none⟩,
        Phase.created, some ("id-a"), [("x", "B"), ("y", "C")]⟩).1.phase = Phase.updated ∧
    (phase2Step [("B", Doc.str ("id-b"))]
      ⟨"A", ⟨"a", some (Doc.map [("x", Doc.str ("@B")), ("y", Doc.str ("@C"))]), false, none⟩,
        Phase.created, some ("id-a"), [("x", "B"), ("y", "C")]⟩).2 ≠ [] := by
  have h := c5_deferred_updates [("B", Doc.str ("id-b"))]
    ⟨"A", ⟨"a", some (Doc.map [("x", Doc.str ("@B")), ("y", Doc.str ("@C"))]), false, none⟩,
      Phase.created, some ("id-a"), [("x", "B"), ("y", "C")]⟩ (by decide)
  have hne : getDeferredUpdates [("B", Doc.str ("id-b"))]
      ⟨"A", ⟨"a", some (Doc.map [("x", Doc.str ("@B")), ("y", Doc.str ("@C"))]), false, none⟩,
        Phase.created, some ("id-a"), [("x", "B"), ("y", "C")]⟩ ≠ [] := by
    have hval : getDeferredUpdates [("B", Doc.str ("id-b"))]
        ⟨"A", ⟨"a", some (Doc.map [("x", Doc.str ("@B")), ("y", Doc.str ("@C"))]), false, none⟩,
          Phase.created, some ("id-a"), [("x", "B"), ("y", "C")]⟩ =
        [("x", Doc.str ("id-b"))] := rfl
    rw [hval]
    simp
  refine ⟨?_, ?_, ?_, ?_⟩
  · rw [h.1 ("x")]
    rfl
  · rw [h.1 ("y")]
    rfl
  · exact h.2.2.1.mpr (Or.inr ⟨rfl, hne⟩)
  · exact h.2.1.mpr ⟨rfl, hne⟩

/-- C6: for an `existing` fixture, phase 1 issues the find with the processed
lookup criteria — `query` when present, falling back to `data` — and zero
matches is a fatal `notFound` error naming the entity kind and the processed
criteria while no create is ever issued; with matches, the first one is
returned in `created` phase, and a fixture that also carries `data` gets
exactly one update with the processed data against the found entity. -/
theorem c6_existing_fixture (procData : Doc → Doc) (fx : FixtureDef)
    (findResult : List String) :
    (findResult = [] →
      (processExistingStep procData fx findResult).2 =
        Except.error (EngError.notFound fx.entity
          (procData (match fx.query with
            | some q => q
            | none => (match fx.data with | some d => d | none => Doc.null))))) ∧
    (∀ c ∈ (processExistingStep procData fx findResult).1, c.isCreate = false) ∧
    (∀ ent rest, findResult = ent :: rest →
      (processExistingStep procData fx findResult).2 = Except.ok (ent, Phase.created)) ∧
    (∀ ent rest d, findResult = ent :: rest → fx.data = some d →
      (processExistingStep procData fx findResult).1 =
        [ApiCall.get (getEntityEndpoint fx.entity)
          (procData (match fx.query with | some q => q | none => d)),
         ApiCall.patch (getEntityEndpoint fx.entity) ent (procData d)]) ∧
    (∀ ent rest, findResult = ent :: rest → fx.data = none →
      (processExistingStep procData fx findResult).1 =
        [ApiCall.get (getEntityEndpoint fx.entity)
          (procData (match fx.query with | some q => q | none => Doc.null))]) := by
  refine ⟨?_, ?_, ?_, ?_, ?_⟩
  · rintro rfl
    cases hq : fx.query <;> cases hd : fx.data <;>
      simp [processExistingStep, findExistingEntity, hq, hd]
  · intro c hc
    cases hfr : findResult with
    | nil =>
        cases hq : fx.query <;> cases hd : fx.data <;>
          (rw [hfr] at hc;
           simp [processExistingStep, findExistingEntity, hq, hd] at hc;
           rw [hc]; rfl)
    | cons ent rest =>
        cases hq : fx.query <;> cases hd : fx.data <;>
          (rw [hfr] at hc;
           simp [processExistingStep, findExistingEntity, hq, hd] at hc;
           first
             | (rw [hc]; rfl)
             | (rcases hc with hc | hc <;> (rw [hc]; rfl)))
  · rintro ent rest rfl
    cases hq : fx.query <;> cases hd : fx.data <;>
      simp [processExistingStep, findExistingEntity, hq, hd]
  · rintro ent rest d rfl hd
    cases hq : fx.query <;>
      simp [processExistingStep, findExistingEntity, hq, hd]
  · rintro ent rest rfl hd
    cases hq : fx.query <;>
      simp [processExistingStep, findExistingEntity, hq, hd]

/-- Witness for C6: with two remote matches the first is returned, one find
and one update are issued in that order, and with zero matches the error
names the entity kind and criteria while nothing is created. -/
theorem c6_existing_fixture_witness :
    (processExistingStep id
      ⟨"customer_group", some (Doc.map [("name", Doc.str ("N"))]), true,
        some (Doc.map [("key", Doc.str ("K"))])⟩ [("id-1"), ("id-2")]).2 =
      Except.ok (("id-1"), Phase.created) ∧
    (processExistingStep id
      ⟨"customer_group", some (Doc.map [("name", Doc.str ("N"))]), true,
        some (Doc.map [("key", Doc.str ("K"))])⟩ [("id-1"), ("id-2")]).1 =
      [ApiCall.get ("./customer-group") (Doc.map [("key", Doc.str ("K"))]),
       ApiCall.patch ("./customer-group") ("id-1") (Doc.map [("name", Doc.str ("N"))])] ∧
    (processExistingStep id
      ⟨"customer_group", some (Doc.map [("name", Doc.str ("N"))]), true,
        some (Doc.map [("key", Doc.str ("K"))])⟩ []).2 =
      Except.error (EngError.notFound ("customer_group") (Doc.map [("key", Doc.str ("K"))])) := by
  have h := c6_existing_fixture id
    ⟨"customer_group", some (Doc.map [("name", Doc.str ("N"))]), true,
      some (Doc.map [("key", Doc.str ("K"))])⟩ [("id-1"), ("id-2")]
  have h0 := c6_existing_fixture id
    ⟨"customer_group", some (Doc.map [("name", Doc.str ("N"))]), true,
      some (Doc.map [("key", Doc.str ("K"))])⟩ []
  refine ⟨h.2.2.1 ("id-1") [("id-2")] rfl, ?_, ?_⟩
  · have hc := h.2.2.2.1 ("id-1") [("id-2")] (Doc.map [("name", Doc.str ("N"))]) rfl rfl
    rw [hc]
    rfl
  · have he := h0.1 rfl
    rw [he]
    rfl

/- ## Cleanup lemmas (claims C9 and C10) -/

theorem getCleanupEndpoint_ne_empty (n : String) : getCleanupEndpoint n ≠ "" := by
  intro hcon
  have hdata := congrArg String.data hcon
  rw [getCleanupEndpoint, getEntityEndpoint, String.data_append] at hdata
  simp at hdata

theorem cleanupCalls_eq_map (oracle : String → String → Except Doc Unit) :
    ∀ l : List (String × String), (∀ p ∈ l, p.2 ≠ "") →
      cleanupCalls oracle l =
        l.map fun p => ApiCall.del (getCleanupEndpoint p.1) p.2 := by
  intro l
  induction l with
  | nil => intro _; rfl
  | cons p rest ih =>
      obtain ⟨n, i⟩ := p
      intro h
      rw [cleanupCalls,
        if_pos ⟨getCleanupEndpoint_ne_empty n, h (n, i) (List.mem_cons_self _ _)⟩]
      cases oracle (getCleanupEndpoint n) i <;>
        simp [ih fun q hq => h q (List.mem_cons_of_mem _ hq)]

theorem cleanupCalls_oracle_irrel (oracle oracle2 : String → String → Except Doc Unit) :
    ∀ l : List (String × String), cleanupCalls oracle l = cleanupCalls oracle2 l := by
  intro l
  induction l with
  | nil => rfl
  | cons p rest ih =>
      obtain ⟨n, i⟩ := p
      rw [cleanupCalls, cleanupCalls]
      by_cases hc : getCleanupEndpoint n ≠ "" ∧ i ≠ ""
      · rw [if_pos hc, if_pos hc]
        cases oracle (getCleanupEndpoint n) i <;> cases oracle2 (getCleanupEndpoint n) i <;>
          simp [ih]
      · rw [if_neg hc, if_neg hc]
        simp [ih]

theorem cleanupCalls_mem (oracle : String → String → Except Doc Unit) :
    ∀ (l : List (String × String)) (n i : String), (n, i) ∈ l → i ≠ "" →
      ApiCall.del (getCleanupEndpoint n) i ∈ cleanupCalls oracle l := by
  intro l
  induction l with
  | nil => intro n i h _; simp at h
  | cons p rest ih =>
      obtain ⟨n0, i0⟩ := p
      intro n i h hi
      rw [cleanupCalls]
      rcases List.mem_cons.mp h with hh | hh
      · obtain ⟨hn, hi0⟩ := Prod.mk.injEq .. ▸ hh
        subst hn
        subst hi0
        rw [if_pos ⟨getCleanupEndpoint_ne_empty n, hi⟩]
        cases oracle (getCleanupEndpoint n) i <;> simp
      · exact List.mem_append_right _ (ih n i hh hi)

/-- C9 counterexample: a ledger entry recorded with an empty (falsy)
identifier gets no delete at all during cleanup — one recorded entity, zero
delete calls — so cleanup does not invoke delete once for each recorded
entity. -/
theorem c9_cleanup_counterexample :
    (cleanup (fun _ _ => Except.ok ()) ⟨[("user_1", "")], []⟩).1 = [] ∧
    ([("user_1", "")] : List (String × String)).length = 1 := by
  exact ⟨rfl, rfl⟩

/-- C9 (amended): cleanup walks the creation ledger in reverse insertion
order and issues one delete per recorded entity whose recorded identifier is
truthy (non-empty), its behaviour is identical whatever the per-entity delete
outcomes are (failures are swallowed and never abort the remaining
deletions), and afterwards both the creation ledger and the reference map are
cleared. -/
theorem c9_cleanup_behaviour (oracle oracle2 : String → String → Except Doc Unit)
    (st : ProcessorState) (h : ∀ p ∈ st.createdEntities, p.2 ≠ "") :
    (cleanup oracle st).1 = st.createdEntities.reverse.map
      (fun p => ApiCall.del (getCleanupEndpoint p.1) p.2) ∧
    (cleanup oracle st).2 = ⟨[], []⟩ ∧
    cleanup oracle st = cleanup oracle2 st := by
  refine ⟨?_, rfl, ?_⟩
  · rw [cleanup]
    exact cleanupCalls_eq_map oracle st.createdEntities.reverse
      fun p hp => h p (List.mem_reverse.mp hp)
  · rw [cleanup, cleanup, cleanupCalls_oracle_irrel oracle oracle2]

/-- Witness for C9: a two-entry ledger with an always-failing delete oracle
still issues both deletes, in reverse order, and clears the state. -/
theorem c9_cleanup_behaviour_witness :
    (cleanup (fun _ _ => Except.error Doc.null)
      ⟨[("customer", "id-1"), ("order", "id-2")], [("customer", Doc.str ("id-1"))]⟩).1 =
      [ApiCall.del ("./order") ("id-2"), ApiCall.del ("./customer") ("id-1")] ∧
    (cleanup (fun _ _ => Except.error Doc.null)
      ⟨[("customer", "id-1"), ("order", "id-2")], [("customer", Doc.str ("id-1"))]⟩).2 =
      ⟨[], []⟩ := by
  have h := c9_cleanup_behaviour (fun _ _ => Except.error Doc.null)
    (fun _ _ => Except.ok ())
    ⟨[("customer", "id-1"), ("order", "id-2")], [("customer", Doc.str ("id-1"))]⟩
    (by decide)
  refine ⟨?_, h.2.1⟩
  · rw [h.1]
    rfl

/-- C10 counterexample: the fixture name `a_b` differs from its entity kind
`a-b`, yet cleanup's delete targets `./a-b` — exactly the collection the
entity was created in — because both normalize to the same endpoint, so the
claim's "targets the endpoint named after the fixture name rather than the
collection the entity was created in" fails at this input. -/
theorem c10_cleanup_endpoint_counterexample :
    ("a_b" : String) ≠ ("a-b" : String) ∧
    getCleanupEndpoint ("a_b") = getEntityEndpoint ("a-b") ∧
    (cleanup (fun _ _ => Except.ok ()) ⟨[("a_b", "id-7")], []⟩).1 =
      [ApiCall.del (getEntityEndpoint ("a-b")) ("id-7")] := by
  exact ⟨by decide, rfl, rfl⟩

/-- C10 (amended): every cleanup delete targets the endpoint derived from the
fixture's recorded name with each underscore replaced by a hyphen — not from
the fixture's entity kind — so whenever the hyphen-normalized name differs
from the hyphen-normalized entity kind, the delete endpoint differs from the
collection the entity was created in. -/
theorem c10_cleanup_endpoint_from_name (oracle : String → String → Except Doc Unit)
    (st : ProcessorState) (n i : String) (hmem : (n, i) ∈ st.createdEntities)
    (hi : i ≠ "") :
    ApiCall.del ("./" ++ snakeToKebab n) i ∈ (cleanup oracle st).1 ∧
    snakeToKebab n = String.mk (n.data.map fun c => if c = '_' then '-' else c) ∧
    (∀ kind : String, snakeToKebab n ≠ snakeToKebab kind →
      ("./" ++ snakeToKebab n) ≠ getEntityEndpoint kind) := by
  refine ⟨?_, rfl, ?_⟩
  · rw [cleanup]
    exact cleanupCalls_mem oracle st.createdEntities.reverse n i
      (List.mem_reverse.mpr hmem) hi
  · intro kind hne hcon
    apply hne
    have hdata := congrArg String.data hcon
    rw [getEntityEndpoint, String.data_append, String.data_append] at hdata
    exact String.ext (List.append_cancel_left hdata)

/-- Witness for C10: the entity recorded under fixture name `customer_group`
is deleted at `./customer-group`, which is distinct from the endpoint of its
entity kind `customer`. -/
theorem c10_cleanup_endpoint_from_name_witness :
    ApiCall.del ("./" ++ snakeToKebab ("customer_group")) ("id-9") ∈
      (cleanup (fun _ _ => Except.ok ())
        ⟨[("customer_group", "id-9")], []⟩).1 ∧
    ("./" ++ snakeToKebab ("customer_group")) ≠ getEntityEndpoint ("customer") := by
  have h := c10_cleanup_endpoint_from_name (fun _ _ => Except.ok ())
    ⟨[("customer_group", "id-9")], []⟩ ("customer_group") ("id-9")
    (List.mem_cons_self _ _) (by decide)
  exact ⟨h.1, h.2.2 ("customer") (by decide)⟩

/- ## Include-composition lemmas (claims C7 and C8) -/

theorem alookup_jsObjAssign {α : Type} :
    ∀ (over : List (String × α)), (over.map Prod.fst).Nodup →
      ∀ (base : List (String × α)) (k : String),
        alookup (jsObjAssign base over) k =
          (match alookup over k with
            | some v => some v
            | none => alookup base k) := by
  intro over
  induction over with
  | nil =>
      intro _ base k
      rw [jsObjAssign, List.foldl_nil]
      cases alookup base k <;> rfl
  | cons kv rest ih =>
      obtain ⟨k0, v0⟩ := kv
      intro hnd base k
      simp only [List.map_cons, List.nodup_cons] at hnd
      have hconv : jsObjAssign base ((k0, v0) :: rest) =
          jsObjAssign (jsInsert base k0 v0) rest := rfl
      rw [hconv, ih hnd.2 (jsInsert base k0 v0) k]
      by_cases hk : k = k0
      · subst hk
        rw [alookup_eq_none rest k hnd.1, alookup_jsInsert, if_pos rfl, alookup,
          if_pos rfl]
      · rw [alookup_jsInsert, if_neg hk, alookup, if_neg (fun hh => hk hh.symm)]

/-- C7 counterexample: in the include chain `a.yml → b.yml → c.yml → b.yml`
the re-encounter of `b.yml` is detected while walking `c.yml`'s include list,
and the raised composition error names the offending path `b.yml` together
with `c.yml` — the immediate includer, not the chain start `a.yml`. -/
theorem c7_circular_include_counterexample :
    loadAndCompose fsChain 10 ("a.yml") =
      Except.error (CompErr.circularInclude ("b.yml") ("c.yml")) ∧
    ("c.yml" : String) ≠ ("a.yml") := by
  exact ⟨rfl, by decide⟩

/-- C7 (amended): re-encountering, at the head of a document's include list,
a file already in the current inclusion chain fails with a composition error
naming the offending path and the file whose include list is being walked
(the immediate includer — the chain start only when the cycle closes at
depth one), while a diamond of includes — `a.yml` including `b.yml` and
`c.yml`, both including the shared `d.yml` with its own fresh-but-superset
visited set — does not fail, and the shared fixture is deduplicated into a
single entry of the composed map. -/
theorem c7_include_cycle_policy (fsys : List (String × RawDoc)) (fuel : Nat)
    (d : RawDoc) (cur : String) (visited : List String) (g : String)
    (rest : List String) (hinc : d.includes = some (g :: rest))
    (hg : g ∈ cur :: visited) :
    processIncludeDirectives fsys (fuel + 1) d cur visited =
      Except.error (CompErr.circularInclude g cur) ∧
    ((((loadAndCompose fsDiamond 10 ("a.yml")).toOption.bind
        RawDoc.fixtures).getD []).map Prod.fst =
      [("d_fix"), ("c_fix"), ("b_fix"), ("a_fix")]) := by
  constructor
  · simp only [processIncludeDirectives, hinc, foldIncludeFiles, if_pos hg]
  · rfl

/-- Witness for C7: processing `c.yml` of the three-file chain with
`b.yml` and `a.yml` already in the chain errors naming `b.yml` and `c.yml`. -/
theorem c7_include_cycle_policy_witness :
    processIncludeDirectives fsChain 10 ({ includes := some [("b.yml")] })
      ("c.yml") [("b.yml"), ("a.yml")] =
      Except.error (CompErr.circularInclude ("b.yml") ("c.yml")) :=
  (c7_include_cycle_policy fsChain 9 ({ includes := some [("b.yml")] })
    ("c.yml") [("b.yml"), ("a.yml")] ("b.yml") [] rfl (by decide)).1

/-- C8 counterexample: composing `nmain.yml` (redefining `F.data.x` as
`(b:3)`) over `nbase.yml` (defining `F.data.x` as `(a:1, b:2)`) replaces the
nested mapping wholesale: the base's nested key `x.a` — which a deep merge of
the `data` sub-document would keep ("other keys from the base layer survive")
— is absent from the composed `F.data`, while it is present in the base. -/
theorem c8_override_merge_counterexample :
    loadAndCompose fsNestedOverride 10 ("nmain.yml") =
      Except.ok ({ fixtures := some ([("F", Doc.map [("entity", Doc.str ("product")),
        ("data", Doc.map [("x", Doc.map [("b", Doc.num 3)])])])]) }) ∧
    getPath (Doc.map [("x", Doc.map [("b", Doc.num 3)])]) [("x"), ("a")] = none ∧
    getPath (Doc.map [("x", Doc.map [("a", Doc.num 1), ("b", Doc.num 2)])])
      [("x"), ("a")] = some (Doc.num 1) := by
  exact ⟨rfl, rfl, rfl⟩

/-- C8 (amended): when base and current layers define the same named fixture,
the composed record takes the current layer's top-level fields (current wins,
the base's other fields survive) and merges the `data` sub-document one level
deep: at each top-level data key the current layer's value wins wholesale —
nested mappings are replaced, not recursively merged — and the base's other
top-level data keys survive; the flat example composes to
`F.data = (a:1, b:3, c:4)`. -/
theorem c8_override_merge_shallow (bs cs bd cd : List (String × Doc))
    (hcs : (cs.map Prod.fst).Nodup) (hcd : (cd.map Prod.fst).Nodup)
    (hbd : alookup bs ("data") = some (Doc.map bd))
    (hcdl : alookup cs ("data") = some (Doc.map cd)) :
    (∀ k, k ≠ ("data") → (mergeFixtureRecord (Doc.map bs) (Doc.map cs)).lookup k =
      (match alookup cs k with
        | some v => some v
        | none => alookup bs k)) ∧
    ((mergeFixtureRecord (Doc.map bs) (Doc.map cs)).lookup ("data") =
      some (Doc.map (jsObjAssign bd cd))) ∧
    (∀ k, alookup (jsObjAssign bd cd) k =
      (match alookup cd k with
        | some v => some v
        | none => alookup bd k)) ∧
    (loadAndCompose fsFlatOverride 10 ("main.yml") =
      Except.ok ({ fixtures := some ([("F", Doc.map [("entity", Doc.str ("customer")),
        ("data", Doc.map [("a", Doc.num 1), ("b", Doc.num 3), ("c", Doc.num 4)])])]) })) := by
  have htr : dataTruthy (Doc.map bs) ∧ dataTruthy (Doc.map cs) := by
    constructor
    · rw [dataTruthy, Doc.lookup, hbd]; rfl
    · rw [dataTruthy, Doc.lookup, hcdl]; rfl
  have hrec : mergeFixtureRecord (Doc.map bs) (Doc.map cs) =
      Doc.map (jsInsert (jsObjAssign bs cs) ("data") (Doc.map (jsObjAssign bd cd))) := by
    rw [mergeFixtureRecord, if_pos htr]
    simp only [Doc.entries, Doc.lookup, hbd, hcdl, Option.getD_some]
  refine ⟨?_, ?_, ?_, rfl⟩
  · intro k hk
    rw [hrec, Doc.lookup, alookup_jsInsert, if_neg hk,
      alookup_jsObjAssign cs hcs bs k]
    cases alookup cs k <;> rfl
  · rw [hrec, Doc.lookup, alookup_jsInsert, if_pos rfl]
  · intro k
    rw [alookup_jsObjAssign cd hcd bd k]
    cases alookup cd k <;> rfl

/-- Witness for C8: merging the base record `F` carrying data `(a:1, b:2)`
with the current record carrying data `(b:3, c:4)` gives the flat shallow
merge, with the current's entity field winning at top level. -/
theorem c8_override_merge_shallow_witness :
    (mergeFixtureRecord
      (Doc.map [("entity", Doc.str ("customer")),
        ("data", Doc.map [("a", Doc.num 1), ("b", Doc.num 2)])])
      (Doc.map [("entity", Doc.str ("customer2")),
        ("data", Doc.map [("b", Doc.num 3), ("c", Doc.num 4)])])).lookup ("data") =
      some (Doc.map (jsObjAssign [("a", Doc.num 1), ("b", Doc.num 2)]
        [("b", Doc.num 3), ("c", Doc.num 4)])) ∧
    Doc.map (jsObjAssign [("a", Doc.num 1), ("b", Doc.num 2)]
        [("b", Doc.num 3), ("c", Doc.num 4)]) =
      Doc.map [("a", Doc.num 1), ("b", Doc.num 3), ("c", Doc.num 4)] ∧
    (mergeFixtureRecord
      (Doc.map [("entity", Doc.str ("customer")),
        ("data", Doc.map [("a", Doc.num 1), ("b", Doc.num 2)])])
      (Doc.map [("entity", Doc.str ("customer2")),
        ("data", Doc.map [("b", Doc.num 3), ("c", Doc.num 4)])])).lookup ("entity") =
      some (Doc.str ("customer2")) := by
  have h := c8_override_merge_shallow
    [("entity", Doc.str ("customer")), ("data", Doc.map [("a", Doc.num 1), ("b", Doc.num 2)])]
    [("entity", Doc.str ("customer2")), ("data", Doc.map [("b", Doc.num 3), ("c", Doc.num 4)])]
    [("a", Doc.num 1), ("b", Doc.num 2)] [("b", Doc.num 3), ("c", Doc.num 4)]
    (by decide) (by decide) rfl rfl
  refine ⟨h.2.1, rfl, ?_⟩
  · rw [h.1 ("entity") (by decide)]
    rfl
